import Mathlib

/-!
# Verification of the Cnet_Task2_Protocol frame codec and ARQ engine

A shallow embedding of the Python sources (`src/utils/crc.py`,
`src/utils/hamming.py`, `src/protocol.py`, `src/udp_client.py`) over
`Nat` and `List Nat` (bytes are naturals `< 256`, byte strings are lists),
together with proofs and refutations of the specification's claims.

Conventions:
* Python `bytes` is `List Nat`; indexing/slicing is translated with
  `List.getElem` / `drop` / `take`, using the fact that Python's clamping
  slice semantics for the patterns used in the source (`frame[3:-4]`,
  `frame[-4:-2]`, `frame[-2:]`) coincide with truncated `Nat` subtraction.
* Python `int` is `Nat` (all values in the source are non-negative);
  masking (`& 0xFFFF`) appears exactly where the source masks.
* fallible operations (`int.to_bytes`, which raises `OverflowError` on
  out-of-range values) return `Option`.
-/

namespace Protocol

/-! ## `src/utils/crc.py` -/

/-- One bit step of the CRC register update, after the input bit has been
XORed in at the MSB: shift left, conditionally XOR the polynomial when the
top bit is set, and mask to 16 bits (`crc &= 0xFFFF`). -/
def crcStep (polynomial crc : Nat) : Nat :=
  (if crc &&& 0x8000 ≠ 0 then (crc <<< 1) ^^^ polynomial else crc <<< 1) &&& 0xFFFF

/-- `calc_crc` from `src/utils/crc.py`: register starts at `0xFFFF`; for each
byte, each bit from MSB to LSB (`for i in range(7, -1, -1)`) is XORed into
the register's MSB (`crc ^= bit << 15`) before the shift step. -/
def calc_crc (data : List Nat) (polynomial : Nat) : Nat :=
  data.foldl
    (fun crc byte =>
      (List.range 8).foldl
        (fun crc i =>
          let bit := (byte >>> (7 - i)) &&& 1
          crcStep polynomial (crc ^^^ (bit <<< 15)))
        crc)
    0xFFFF

/-- `verify_crc` from `src/utils/crc.py`. -/
def verify_crc (data : List Nat) (crc : Nat) : Bool :=
  calc_crc data 0x8005 == crc

/-- The specification's reference CRC-16 (spec §4.1): initialize the register
to `0xFFFF`; for each input byte, XOR it into the high byte of the register,
then perform 8 shift steps, masking to 16 bits after every bit. -/
def crcSpec (data : List Nat) (polynomial : Nat) : Nat :=
  data.foldl (fun crc byte => (crcStep polynomial)^[8] (crc ^^^ (byte <<< 8))) 0xFFFF

/-! ### Equivalence of the two CRC formulations (towards claim C6) -/

/-- The bits of `x` below position `k`, most significant first. -/
def bitsBE : Nat → Nat → List Nat
  | 0, _ => []
  | k + 1, x => ((x >>> k) &&& 1) :: bitsBE k x

/-- Feeding a list of bits serially into the register, each XORed in at the
MSB before a shift step. -/
def serialFold (polynomial : Nat) (bits : List Nat) (crc : Nat) : Nat :=
  bits.foldl (fun crc bit => crcStep polynomial (crc ^^^ (bit <<< 15))) crc

theorem crcStep_lt (polynomial crc : Nat) : crcStep polynomial crc < 65536 := by
  have h : ∀ a : Nat, a &&& 0xFFFF < 65536 := fun a =>
    Nat.lt_succ_of_le (Nat.and_le_right)
  unfold crcStep
  split <;> exact h _

theorem bitsBE_length (k x : Nat) : (bitsBE k x).length = k := by
  induction k generalizing x with
  | zero => rfl
  | succ k ih => simp [bitsBE, ih]

/-- Bits below `k` only depend on `x % 2 ^ k`. -/
theorem bitsBE_mod (k x : Nat) : bitsBE k (x % 2 ^ k) = bitsBE k x := by
  induction k generalizing x with
  | zero => rfl
  | succ k ih =>
    have h1 : (x % 2 ^ (k + 1)) >>> k &&& 1 = x >>> k &&& 1 := by
      have hx : ∀ y : Nat, y >>> k &&& 1 = (y / 2 ^ k) % 2 := by
        intro y
        rw [Nat.shiftRight_eq_div_pow, Nat.and_one_is_mod]
      rw [hx, hx, Nat.pow_succ, Nat.mod_mul_right_div_self]
      omega
    have h2 : bitsBE k (x % 2 ^ (k + 1)) = bitsBE k x := by
      calc bitsBE k (x % 2 ^ (k + 1))
          = bitsBE k (x % 2 ^ (k + 1) % 2 ^ k) := (ih _).symm
        _ = bitsBE k (x % 2 ^ k) := by
            rw [Nat.mod_mod_of_dvd _ (by exact pow_dvd_pow 2 (Nat.le_succ k))]
        _ = bitsBE k x := ih x
    simp [bitsBE, h1, h2]

/-- XOR with a value having no bit 15 commutes with a CRC step: the branch
decision is unchanged and the shifted XOR distributes. -/
theorem crcStep_xor (polynomial crc x : Nat) (hx : x < 2 ^ 15) :
    crcStep polynomial (crc ^^^ x) = crcStep polynomial crc ^^^ ((x <<< 1) &&& 0xFFFF) := by
  have hbit : ∀ y : Nat, y &&& 0x8000 = (y.testBit 15).toNat * 0x8000 := fun y =>
    Nat.and_two_pow y 15
  have hxbit : x.testBit 15 = false := Nat.testBit_lt_two_pow hx
  have hsame : (crc ^^^ x) &&& 0x8000 = crc &&& 0x8000 := by
    rw [hbit, hbit, Nat.testBit_xor, hxbit, Bool.xor_false]
  have hshift : (crc ^^^ x) <<< 1 = (crc <<< 1) ^^^ (x <<< 1) := by
    apply Nat.eq_of_testBit_eq
    intro i
    simp [Nat.testBit_shiftLeft, Nat.testBit_xor, Bool.and_xor_distrib_left]
  unfold crcStep
  rw [hsame]
  rw [hshift]
  by_cases h : crc &&& 0x8000 ≠ 0
  · rw [if_pos h, if_pos h, Nat.xor_assoc, Nat.xor_comm (x <<< 1), ← Nat.xor_assoc,
      Nat.and_xor_distrib_right]
  · rw [if_neg h, if_neg h, Nat.and_xor_distrib_right]

/-- Splitting a shifted value at bit `k`: the high part (shifted up by `k`)
and the low part occupy disjoint bits, so the split is an XOR. -/
theorem shiftLeft_decomp (m k x : Nat) :
    x <<< m = ((x >>> k) <<< (m + k)) ^^^ ((x % 2 ^ k) <<< m) := by
  apply Nat.eq_of_testBit_eq
  intro i
  simp only [Nat.testBit_shiftLeft, Nat.testBit_xor, Nat.testBit_shiftRight,
    Nat.testBit_mod_two_pow]
  by_cases h1 : m ≤ i
  · by_cases h2 : m + k ≤ i
    · have e1 : k + (i - (m + k)) = i - m := by omega
      have e2 : ¬ (i - m < k) := by omega
      simp [h1, h2, e1, e2]
    · have e2 : i - m < k := by omega
      simp [h1, h2, e2]
  · simp [h1, show ¬ (m + k ≤ i) by omega]

/-- Serial (bit-at-a-time) CRC feeding of the top `k` bits of `x` equals `k`
shift steps on the register with `x` XORed in `k` positions below the MSB:
the two formulations of the CRC inner loop agree. -/
theorem serialFold_eq_iterate (polynomial : Nat) :
    ∀ k, k ≤ 16 → ∀ c x : Nat, x < 2 ^ k →
      serialFold polynomial (bitsBE k x) c =
        (crcStep polynomial)^[k] (c ^^^ (x <<< (16 - k))) := by
  intro k
  induction k with
  | zero =>
    intro _ c x hx
    interval_cases x
    simp [serialFold, bitsBE]
  | succ k ih =>
    intro hk c x hx
    have hk' : k ≤ 16 := Nat.le_of_succ_le hk
    have hxk : x >>> k &&& 1 = x >>> k := by
      have : x >>> k < 2 := by
        rw [Nat.shiftRight_eq_div_pow]
        exact Nat.div_lt_of_lt_mul (by rw [← Nat.pow_succ]; exact hx)
      rw [Nat.and_one_is_mod, Nat.mod_eq_of_lt this]
    have hlow : (x % 2 ^ k) <<< (15 - k) < 2 ^ 15 := by
      rw [Nat.shiftLeft_eq]
      calc (x % 2 ^ k) * 2 ^ (15 - k) < 2 ^ k * 2 ^ (15 - k) :=
            (Nat.mul_lt_mul_right (Nat.pos_pow_of_pos _ (by norm_num))).mpr
              (Nat.mod_lt _ (Nat.pos_pow_of_pos _ (by norm_num)))
        _ = 2 ^ 15 := by rw [← Nat.pow_add]; congr 1; omega
    have hmask : ((x % 2 ^ k) <<< (16 - k)) &&& 0xFFFF = (x % 2 ^ k) <<< (16 - k) := by
      have hlt : (x % 2 ^ k) <<< (16 - k) < 2 ^ 16 := by
        rw [Nat.shiftLeft_eq]
        calc (x % 2 ^ k) * 2 ^ (16 - k) < 2 ^ k * 2 ^ (16 - k) :=
              (Nat.mul_lt_mul_right (Nat.pos_pow_of_pos _ (by norm_num))).mpr
                (Nat.mod_lt _ (Nat.pos_pow_of_pos _ (by norm_num)))
          _ = 2 ^ 16 := by rw [← Nat.pow_add]; congr 1; omega
      have : (0xFFFF : Nat) = 2 ^ 16 - 1 := by norm_num
      rw [this, Nat.and_pow_two_sub_one_of_lt_two_pow hlt]
    have hdec : x <<< (16 - (k + 1)) =
        ((x >>> k) <<< 15) ^^^ ((x % 2 ^ k) <<< (15 - k)) := by
      have h15 : (16 - (k + 1)) + k = 15 := by omega
      have h15' : 16 - (k + 1) = 15 - k := by omega
      rw [← h15', ← h15, shiftLeft_decomp (16 - (k + 1)) k x]
    calc serialFold polynomial (bitsBE (k + 1) x) c
        = serialFold polynomial (bitsBE k (x % 2 ^ k))
            (crcStep polynomial (c ^^^ (x >>> k &&& 1) <<< 15)) := by
          rw [bitsBE_mod]; rfl
      _ = (crcStep polynomial)^[k]
            (crcStep polynomial (c ^^^ (x >>> k &&& 1) <<< 15) ^^^
              ((x % 2 ^ k) <<< (16 - k))) :=
          ih hk' _ _ (Nat.mod_lt _ (Nat.pos_pow_of_pos _ (by norm_num)))
      _ = (crcStep polynomial)^[k]
            (crcStep polynomial (c ^^^ x <<< (16 - (k + 1)))) := by
          congr 1
          rw [hxk, hdec, ← Nat.xor_assoc,
            crcStep_xor polynomial (c ^^^ (x >>> k) <<< 15) _ hlow,
            ← Nat.shiftLeft_add]
          have : (15 - k) + 1 = 16 - k := by omega
          rw [this, hmask]
      _ = (crcStep polynomial)^[k + 1] (c ^^^ x <<< (16 - (k + 1))) :=
          (Function.iterate_succ_apply (crcStep polynomial) k _).symm

theorem bitsBE_eight (byte : Nat) :
    bitsBE 8 byte = [(byte >>> 7) &&& 1, (byte >>> 6) &&& 1, (byte >>> 5) &&& 1,
      (byte >>> 4) &&& 1, (byte >>> 3) &&& 1, (byte >>> 2) &&& 1, (byte >>> 1) &&& 1,
      (byte >>> 0) &&& 1] := rfl

/-- The inner 8-bit loop of `calc_crc` is the serial fold over the byte's
bits, most significant first. -/
theorem calcInner_eq_serialFold (polynomial c byte : Nat) :
    (List.range 8).foldl
      (fun crc i =>
        let bit := (byte >>> (7 - i)) &&& 1
        crcStep polynomial (crc ^^^ (bit <<< 15)))
      c = serialFold polynomial (bitsBE 8 byte) c := by
  have h8 : List.range 8 = [0, 1, 2, 3, 4, 5, 6, 7] := by decide
  rw [h8, bitsBE_eight byte, serialFold]
  simp only [List.foldl_cons, List.foldl_nil]

/-- **C6.** CRC-16 reference correctness: for every byte sequence and every
polynomial, `calc_crc` (which XORs each message bit into the register MSB
just before its shift step) computes the same value as the specification's
reference algorithm `crcSpec` (which XORs the whole byte into the high byte
of the register and then performs 8 shift steps, masking to 16 bits after
every bit). Both process the bytes left to right by definition (`List.foldl`)
and are deterministic Lean functions. -/
theorem calc_crc_eq_spec_reference (data : List Nat) (polynomial : Nat)
    (h : ∀ b ∈ data, b < 256) : calc_crc data polynomial = crcSpec data polynomial := by
  suffices haux : ∀ (l : List Nat) (c : Nat), (∀ b ∈ l, b < 256) →
      l.foldl
        (fun crc byte =>
          (List.range 8).foldl
            (fun crc i =>
              let bit := (byte >>> (7 - i)) &&& 1
              crcStep polynomial (crc ^^^ (bit <<< 15)))
            crc)
        c =
      l.foldl (fun crc byte => (crcStep polynomial)^[8] (crc ^^^ (byte <<< 8))) c by
    exact haux data 0xFFFF h
  intro l
  induction l with
  | nil => intro c _; rfl
  | cons b bs ih =>
    intro c hb
    simp only [List.foldl_cons]
    rw [calcInner_eq_serialFold,
      serialFold_eq_iterate polynomial 8 (by norm_num) c b
        (hb b (List.mem_cons_self b bs))]
    exact ih _ (fun y hy => hb y (List.mem_cons_of_mem _ hy))

/-! ## `src/utils/hamming.py` -/

/-- The `while binary_data:` loop of `data_to_4_bits_groups`: collects the
binary digits (the Python inserts each at the front, yielding the most
significant first; here they are collected least significant first and
reversed by the caller). `fuel` bounds the iteration count; since the
argument halves each round, `n` itself always suffices. -/
def natBitsLEAux : Nat → Nat → List Nat
  | 0, _ => []
  | fuel + 1, n => if n = 0 then [] else (n &&& 1) :: natBitsLEAux fuel (n >>> 1)

def natBitsLE (n : Nat) : List Nat := natBitsLEAux n n

/-- Successive groups of at most 4 elements, as produced by the
`bits[i:i+4]` slices (step 4) in `data_to_4_bits_groups`; also used for the
`data[i:i+4]` blocks (step 4) in `Frame.create_frame`. -/
def chunks4 {α : Type} : List α → List (List α)
  | [] => []
  | [a] => [[a]]
  | [a, b] => [[a, b]]
  | [a, b, c] => [[a, b, c]]
  | a :: b :: c :: d :: rest => [a, b, c, d] :: chunks4 rest

/-- `data_to_4_bits_groups` from `src/utils/hamming.py`: binary digits of the
input most significant first, zero-padded at the front to a multiple of 4,
split into groups of 4 bits. -/
def data_to_4_bits_groups (binary_data : Nat) : List (List Nat) :=
  let bits := (natBitsLE binary_data).reverse
  let pad := (4 - bits.length % 4) % 4
  chunks4 (List.replicate pad 0 ++ bits)

/-- The 7 codeword bits (most significant first) of one 4-bit group, in the
position order `p1 p2 d0 p3 d1 d2 d3` with `p1 = d0^d1^d3`, `p2 = d0^d2^d3`,
`p3 = d1^d2^d3` — the loop body of `hamming74`. -/
def hammingGroupBits (g : List Nat) : List Nat :=
  let d0 := g.getD 0 0
  let d1 := g.getD 1 0
  let d2 := g.getD 2 0
  let d3 := g.getD 3 0
  let p1 := d0 ^^^ d1 ^^^ d3
  let p2 := d0 ^^^ d2 ^^^ d3
  let p3 := d1 ^^^ d2 ^^^ d3
  [p1, p2, d0, p3, d1, d2, d3]

/-- `hamming74` from `src/utils/hamming.py`: encodes each 4-bit group and
packs all codeword bits into one integer, shifting in one bit at a time. -/
def hamming74 (binary_data : Nat) : Nat :=
  (data_to_4_bits_groups binary_data).foldl
    (fun acc g => (hammingGroupBits g).foldl (fun a bit => (a <<< 1) ||| bit) acc) 0

/-- `fix_hamming74_group` from `src/utils/hamming.py`. The Python builds a
list with `bits[idx]` being the bit at position `6 - idx` of the input; the
syndrome lines `s1 = bits[6]^bits[4]^bits[2]^bits[0]` etc. are translated
through `b i = (encoded_data >>> i) &&& 1` (so `bits[idx] = b (6 - idx)`). -/
def fix_hamming74_group (encoded_data : Nat) : Nat × Nat × Bool :=
  let b := fun (i : Nat) => (encoded_data >>> i) &&& 1
  let s1 := b 0 ^^^ b 2 ^^^ b 4 ^^^ b 6
  let s2 := b 1 ^^^ b 2 ^^^ b 5 ^^^ b 6
  let s3 := b 3 ^^^ b 4 ^^^ b 5 ^^^ b 6
  let error_pos := s1 + (s2 <<< 1) + (s3 <<< 2)
  if error_pos = 0 then (encoded_data, 0, false)
  else
    let error_pos' := 7 - error_pos
    (encoded_data ^^^ (1 <<< error_pos'), error_pos', true)

/-- The 4 data bits `d0 d1 d2 d3` of a 7-bit codeword, read from their fixed
positions (with codeword bits `p1 p2 d0 p3 d1 d2 d3` from the MSB, the data
bits sit at bit positions 4, 2, 1, 0), reassembled as the 4-bit value
`d0 d1 d2 d3` — the extraction step of the spec's decode contract (§4.2). -/
def hammingDataBits (c : Nat) : Nat :=
  (((c >>> 4) &&& 1) <<< 3) ||| (((c >>> 2) &&& 1) <<< 2) |||
    (((c >>> 1) &&& 1) <<< 1) ||| (c &&& 1)

/-! ## The byte-stream Hamming codec used by `src/protocol.py`

`protocol.py` imports `hamming74_encode` and `hamming74_decode` from
`utils.hamming`, but the source tree's `src/utils/hamming.py` does not
define them (it only has the integer-level `hamming74`,
`fix_hamming74_group` and `fix_hamming74`). They are therefore modelled
from the specification (§4.2 and the call sites in `protocol.py`). -/

/-- Packs a list of bits (most significant first, length a multiple of 8)
into bytes. -/
def bitsToBytes : List Nat → List Nat
  | b7 :: b6 :: b5 :: b4 :: b3 :: b2 :: b1 :: b0 :: rest =>
    ((((((((b7 <<< 1) ||| b6) <<< 1 ||| b5) <<< 1 ||| b4) <<< 1 ||| b3) <<< 1
        ||| b2) <<< 1 ||| b1) <<< 1 ||| b0) :: bitsToBytes rest
  | _ => []

/-- The bit stream (most significant first) of a byte string. -/
def bytesToBits (bytes : List Nat) : List Nat :=
  bytes.flatMap (bitsBE 8)

/-- Successive groups of 7 bits (a trailing group of fewer than 7 bits is
padding and is dropped). -/
def chunks7 {α : Type} : List α → List (List α)
  | b1 :: b2 :: b3 :: b4 :: b5 :: b6 :: b7 :: rest =>
    [b1, b2, b3, b4, b5, b6, b7] :: chunks7 rest
  | _ => []

/-- The value of a bit list, most significant first. -/
def bitsVal (bits : List Nat) : Nat :=
  bits.foldl (fun a bit => (a <<< 1) ||| bit) 0

/-- Modelled from the spec: `hamming74_encode` is imported by `protocol.py`
from `utils.hamming` but absent from `src/utils/hamming.py`. Spec §4.2: the
input bytes are split into 4-bit groups (two per byte, high nibble first),
a short final group is zero-padded (here: the block, at most 4 data bytes
per the `data[i:i+4]` call sites in `Frame.create_frame`, is zero-padded to
4 bytes), each group is encoded as the codeword `p1 p2 d0 p3 d1 d2 d3`, and
the 8 codewords' 56 bits are packed into 7 bytes. The Python call site
discards the second component of the returned pair, so only the encoded
bytes are modelled. -/
def hamming74_encode (block : List Nat) : List Nat :=
  let padded := block ++ List.replicate (4 - block.length) 0
  bitsToBytes ((chunks4 (bytesToBits padded)).flatMap hammingGroupBits)

/-- The spec's syndrome decode of a single 7-bit codeword (§4.2): recompute
the syndromes from the same parity relations as the encoder, flip the bit
the nonzero syndrome selects, and read the data bits from their fixed
positions. (This is what `fix_hamming74_group` was meant to compute; the
version in `src/utils/hamming.py` checks the wrong bit positions, see
`hamming_fix_corrupts_clean_codeword`.) -/
def decodeGroupBits (w : List Nat) : List Nat :=
  let c := bitsVal w
  let b := fun (i : Nat) => (c >>> i) &&& 1
  -- parity relations of the encoder: p1 = d0^d1^d3 at bit 6, p2 = d0^d2^d3
  -- at bit 5, p3 = d1^d2^d3 at bit 3; data d0 d1 d2 d3 at bits 4 2 1 0.
  let s1 := b 6 ^^^ b 4 ^^^ b 2 ^^^ b 0
  let s2 := b 5 ^^^ b 4 ^^^ b 1 ^^^ b 0
  let s3 := b 3 ^^^ b 2 ^^^ b 1 ^^^ b 0
  let syndrome := s1 + (s2 <<< 1) + (s3 <<< 2)
  let fixed := if syndrome = 0 then c else c ^^^ (1 <<< (7 - syndrome))
  [(fixed >>> 4) &&& 1, (fixed >>> 2) &&& 1, (fixed >>> 1) &&& 1, fixed &&& 1]

/-- Modelled from the spec: `hamming74_decode` is imported by `protocol.py`
from `utils.hamming` but absent from `src/utils/hamming.py`. Per the call
site in `Frame.check_frame` it receives one 7-byte block and the number
`group_len` of original data bytes (at most 4) to recover: the block's 56
bits are split into 8 codewords, each is syndrome-corrected and its 4 data
bits extracted (spec §4.2), and the first `group_len` bytes are returned. -/
def hamming74_decode (block : List Nat) (group_len : Nat) : List Nat :=
  (bitsToBytes ((chunks7 (bytesToBits block)).flatMap decodeGroupBits)).take group_len

/-! ## `src/protocol.py` -/

/-- `n.to_bytes(1, byteorder='big')`: `none` models the `OverflowError`
raised when the value does not fit in one byte. -/
def toBytes1 (n : Nat) : Option (List Nat) :=
  if n < 256 then some [n] else none

/-- `n.to_bytes(2, byteorder='big')`. -/
def toBytes2 (n : Nat) : Option (List Nat) :=
  if n < 65536 then some [n / 256, n % 256] else none

/-- `int.from_bytes(_, byteorder='big')`. -/
def fromBytesBE (l : List Nat) : Nat :=
  l.foldl (fun a b => a * 256 + b) 0

/-- `Frame.FRAGMENT_SIZE` from `src/protocol.py`. -/
def FRAGMENT_SIZE : Nat := 16

/-- `Frame.create_frame` from `src/protocol.py`: sequence byte, fragment
info (fragment id and total, one byte each), the Hamming-encoded data (one
encoded block per `data[i:i+4]` slice), the two-byte original length and
the two-byte CRC over everything before it. `none` models the
`OverflowError` of an out-of-range `to_bytes` argument. -/
def create_frame (seq_num : Nat) (data : List Nat) (fragment_id : Nat := 0)
    (total_fragments : Nat := 1) : Option (List Nat) := do
  let seq_byte ← toBytes1 seq_num
  let fragment_info := (← toBytes1 fragment_id) ++ (← toBytes1 total_fragments)
  let data_with_hamming := (chunks4 data).flatMap hamming74_encode
  let original_len ← toBytes2 data.length
  let crc := calc_crc (seq_byte ++ fragment_info ++ data_with_hamming ++ original_len) 0x8005
  let crc_bytes ← toBytes2 crc
  return seq_byte ++ fragment_info ++ data_with_hamming ++ original_len ++ crc_bytes

/-- The payload slice `data[start:end]` of fragment `i` in
`Frame.create_fragmented_frames` (`start = i * FRAGMENT_SIZE`,
`end = min(start + FRAGMENT_SIZE, len(data))`). -/
def fragmentChunk (data : List Nat) (i : Nat) : List Nat :=
  let start := i * FRAGMENT_SIZE
  let stop := min (start + FRAGMENT_SIZE) data.length
  (data.drop start).take (stop - start)

/-- Sequencing a list of fallible results: `none` as soon as one element is
`none` (a raised exception propagates out of the Python loop). -/
def seqOptions {α : Type} : List (Option α) → Option (List α)
  | [] => some []
  | none :: _ => none
  | some a :: rest => (seqOptions rest).map (a :: ·)

/-- `Frame.create_fragmented_frames` from `src/protocol.py`. -/
def create_fragmented_frames (seq_num : Nat) (data : List Nat) :
    Option (List (List Nat)) :=
  if data.length ≤ FRAGMENT_SIZE then
    (create_frame seq_num data).map (fun f => [f])
  else
    let total_fragments := (data.length + FRAGMENT_SIZE - 1) / FRAGMENT_SIZE
    seqOptions ((List.range total_fragments).map (fun i =>
      create_frame seq_num (fragmentChunk data i) i total_fragments))

/-- `Frame.is_fragmented` from `src/protocol.py`. -/
def is_fragmented (total_fragments : Nat) : Bool :=
  decide (total_fragments > 1)

/-- ASCII bytes of `b'CRC error'`, the payload of the CRC-mismatch outcome. -/
def crcErrorBytes : List Nat := [67, 82, 67, 32, 101, 114, 114, 111, 114]

/-- ASCII bytes of `'Frame check error'`, standing in for the dynamic
`f'Frame check error: {str(e)}'` message of the exception branch (no claim
inspects the text beyond distinguishing the outcomes). -/
def frameCheckErrorBytes : List Nat :=
  [70, 114, 97, 109, 101, 32, 99, 104, 101, 99, 107, 32, 101, 114, 114, 111, 114]

/-- Successive blocks of at most 7 elements: the `data_with_hamming[i:i+7]`
slices (step 7) of the decode loop in `Frame.check_frame`. -/
def blocks7 {α : Type} : List α → List (List α)
  | [] => []
  | [a] => [[a]]
  | [a, b] => [[a, b]]
  | [a, b, c] => [[a, b, c]]
  | [a, b, c, d] => [[a, b, c, d]]
  | [a, b, c, d, e] => [[a, b, c, d, e]]
  | [a, b, c, d, e, f] => [[a, b, c, d, e, f]]
  | a :: b :: c :: d :: e :: f :: g :: rest =>
    [a, b, c, d, e, f, g] :: blocks7 rest

/-- The decode loop of `Frame.check_frame`: per 7-byte block, decode
`min(4, bytes_needed - len(decoded))` original bytes and extend the
accumulator, breaking once `bytes_needed` bytes have been produced. -/
def decodeLoop (bytes_needed : Nat) : List (List Nat) → List Nat → List Nat
  | [], acc => acc
  | block :: rest, acc =>
    let group_len := min 4 (bytes_needed - acc.length)
    let acc' := acc ++ hamming74_decode block group_len
    if bytes_needed ≤ acc'.length then acc'
    else decodeLoop bytes_needed rest acc'

/-- `Frame.check_frame` from `src/protocol.py`. The `try/except` catches
exactly the `IndexError` raised by `frame[0]`/`frame[1]`/`frame[2]` on an
input of fewer than 3 bytes (no other statement in the body raises on byte
input); the slices `frame[3:-4]`, `frame[-4:-2]`, `frame[-2:]` follow
Python's clamping semantics, which on these patterns coincide with
truncated `Nat` subtraction. `frame` holds bytes (each `< 256`), so the
re-encoding `to_bytes` calls of the CRC recomputation cannot raise. -/
def check_frame (frame : List Nat) : Option Nat × List Nat × Nat × Nat :=
  if 3 ≤ frame.length then
    let seq_num := frame.getD 0 0
    let fragment_id := frame.getD 1 0
    let total_fragments := frame.getD 2 0
    let data_with_hamming := (frame.drop 3).take (frame.length - 7)
    let original_len :=
      fromBytesBE ((frame.drop (frame.length - 4)).take
        ((frame.length - 2) - (frame.length - 4)))
    let received_crc := fromBytesBE (frame.drop (frame.length - 2))
    let decoded := decodeLoop original_len (blocks7 data_with_hamming) []
    let decode_data := decoded.take original_len
    let frame_for_crc := seq_num :: fragment_id :: total_fragments ::
      (data_with_hamming ++ [original_len / 256, original_len % 256])
    let calculated_crc := calc_crc frame_for_crc 0x8005
    if calculated_crc = received_crc then
      (some seq_num, decode_data, fragment_id, total_fragments)
    else
      (none, crcErrorBytes, 0, 0)
  else
    (none, frameCheckErrorBytes, 0, 0)

/-! ### Round-trip of the byte-stream Hamming codec -/

theorem bitsBE_le_one (k x : Nat) : ∀ b ∈ bitsBE k x, b ≤ 1 := by
  induction k generalizing x with
  | zero => intro b hb; simp [bitsBE] at hb
  | succ k ih =>
    intro b hb
    rcases List.mem_cons.mp hb with h | h
    · subst h; exact Nat.and_le_right
    · exact ih x b h

theorem bytesToBits_le_one (bytes : List Nat) : ∀ b ∈ bytesToBits bytes, b ≤ 1 := by
  intro b hb
  rw [bytesToBits, List.mem_flatMap] at hb
  obtain ⟨y, _, hby⟩ := hb
  exact bitsBE_le_one 8 y b hby

theorem bytesToBits_length (bytes : List Nat) :
    (bytesToBits bytes).length = 8 * bytes.length := by
  induction bytes with
  | nil => rfl
  | cons b rest ih =>
    simp only [bytesToBits, List.flatMap_cons, List.length_append] at *
    rw [ih, bitsBE_length]
    simp [Nat.mul_succ, Nat.mul_add]
    omega

theorem bytesToBits_append (u v : List Nat) :
    bytesToBits (u ++ v) = bytesToBits u ++ bytesToBits v := by
  simp [bytesToBits]

set_option maxRecDepth 4000 in
/-- Recomposing a byte from its 8 bits (the head case of `bitsToBytes` on the
bit list of `b`). -/
theorem bitsToBytes_bitsBE_head (b : Nat) (hb : b < 256) (rest : List Nat) :
    bitsToBytes (bitsBE 8 b ++ rest) = b :: bitsToBytes rest := by
  rw [bitsBE_eight]
  show bitsToBytes (((b >>> 7) &&& 1) :: ((b >>> 6) &&& 1) :: ((b >>> 5) &&& 1) ::
    ((b >>> 4) &&& 1) :: ((b >>> 3) &&& 1) :: ((b >>> 2) &&& 1) :: ((b >>> 1) &&& 1) ::
    ((b >>> 0) &&& 1) :: rest) = b :: bitsToBytes rest
  rw [bitsToBytes]
  have h : ∀ x < 256,
      ((((((((x >>> 7 &&& 1) <<< 1 ||| x >>> 6 &&& 1) <<< 1 ||| x >>> 5 &&& 1) <<< 1 |||
        x >>> 4 &&& 1) <<< 1 ||| x >>> 3 &&& 1) <<< 1 ||| x >>> 2 &&& 1) <<< 1 |||
        x >>> 1 &&& 1) <<< 1 ||| x >>> 0 &&& 1) = x := by decide
  rw [h b hb]

/-- `bitsToBytes` inverts `bytesToBits` on byte strings. -/
theorem bitsToBytes_bytesToBits (bytes : List Nat) (h : ∀ b ∈ bytes, b < 256) :
    bitsToBytes (bytesToBits bytes) = bytes := by
  induction bytes with
  | nil => rfl
  | cons b rest ih =>
    rw [bytesToBits, List.flatMap_cons, ← bytesToBits,
      bitsToBytes_bitsBE_head b (h b (List.mem_cons_self b rest)),
      ih (fun y hy => h y (List.mem_cons_of_mem _ hy))]

set_option synthInstance.maxSize 2000 in
set_option maxRecDepth 4000 in
set_option maxHeartbeats 1000000 in
/-- Splitting a byte back into its 8 bits. -/
theorem bitsBE_byteVal :
    ∀ x7 < 2, ∀ x6 < 2, ∀ x5 < 2, ∀ x4 < 2, ∀ x3 < 2, ∀ x2 < 2, ∀ x1 < 2, ∀ x0 < 2,
      bitsBE 8 (((((((((x7 <<< 1) ||| x6) <<< 1 ||| x5) <<< 1 ||| x4) <<< 1 ||| x3) <<< 1
        ||| x2) <<< 1 ||| x1) <<< 1 ||| x0)) = [x7, x6, x5, x4, x3, x2, x1, x0] := by
  decide

/-- `bytesToBits` inverts `bitsToBytes` on bit strings whose length is a
multiple of 8. -/
theorem bytesToBits_bitsToBytes (bits : List Nat) (hb : ∀ b ∈ bits, b ≤ 1)
    (hlen : bits.length % 8 = 0) : bytesToBits (bitsToBytes bits) = bits := by
  obtain ⟨n, hn⟩ : ∃ n, bits.length = 8 * n := ⟨bits.length / 8, by omega⟩
  clear hlen
  induction n generalizing bits with
  | zero =>
    rw [Nat.mul_zero, List.length_eq_zero] at hn
    subst hn
    rfl
  | succ n ih =>
    rcases bits with _ | ⟨b7, _ | ⟨b6, _ | ⟨b5, _ | ⟨b4, _ | ⟨b3, _ | ⟨b2, _ |
      ⟨b1, _ | ⟨b0, rest⟩⟩⟩⟩⟩⟩⟩⟩ <;>
      simp only [List.length_nil, List.length_cons] at hn <;> try omega
    have hb' : ∀ x ∈ rest, x ≤ 1 := fun x hx => hb x (by simp [hx])
    have h2 : ∀ y ∈ ([b7, b6, b5, b4, b3, b2, b1, b0] : List Nat), y < 2 := by
      intro y hy
      have : y ≤ 1 := hb y (by
        simp only [List.mem_cons] at hy ⊢
        tauto)
      omega
    rw [bitsToBytes, bytesToBits, List.flatMap_cons, ← bytesToBits,
      ih rest hb' (by omega),
      bitsBE_byteVal
        b7 (h2 _ (by simp)) b6 (h2 _ (by simp)) b5 (h2 _ (by simp)) b4 (h2 _ (by simp))
        b3 (h2 _ (by simp)) b2 (h2 _ (by simp)) b1 (h2 _ (by simp)) b0 (h2 _ (by simp))]
    rfl

theorem xor_le_one {a b : Nat} (ha : a ≤ 1) (hb : b ≤ 1) : a ^^^ b ≤ 1 := by
  interval_cases a <;> interval_cases b <;> decide

theorem hammingGroupBits_le_one (g : List Nat) (hg : ∀ b ∈ g, b ≤ 1) :
    ∀ b ∈ hammingGroupBits g, b ≤ 1 := by
  have h0 : g.getD 0 0 ≤ 1 := by
    rcases g with _ | ⟨a, t⟩
    · simp
    · exact hg a (by simp)
  have h1 : g.getD 1 0 ≤ 1 := by
    rcases g with _ | ⟨a, _ | ⟨b, t⟩⟩ <;> simp_all
  have h2 : g.getD 2 0 ≤ 1 := by
    rcases g with _ | ⟨a, _ | ⟨b, _ | ⟨c, t⟩⟩⟩ <;> simp_all
  have h3 : g.getD 3 0 ≤ 1 := by
    rcases g with _ | ⟨a, _ | ⟨b, _ | ⟨c, _ | ⟨d, t⟩⟩⟩⟩ <;> simp_all
  intro b hb
  simp only [hammingGroupBits, List.mem_cons, List.not_mem_nil, or_false] at hb
  rcases hb with h | h | h | h | h | h | h <;> subst h <;>
    first
      | assumption
      | exact xor_le_one (xor_le_one h0 h1) h3
      | exact xor_le_one (xor_le_one h0 h2) h3
      | exact xor_le_one (xor_le_one h1 h2) h3

theorem chunks4_append4 {α : Type} (a b c d : α) (rest : List α) :
    chunks4 (a :: b :: c :: d :: rest) = [a, b, c, d] :: chunks4 rest := by
  rcases rest with _ | ⟨x, t⟩ <;> rfl

theorem chunks7_append7 {α : Type} (x1 x2 x3 x4 x5 x6 x7 : α) (rest : List α) :
    chunks7 (x1 :: x2 :: x3 :: x4 :: x5 :: x6 :: x7 :: rest) =
      [x1, x2, x3, x4, x5, x6, x7] :: chunks7 rest := rfl

/-- `chunks7` recovers the codewords from a concatenation of 7-bit groups. -/
theorem chunks7_flatMap_seven {α β : Type} (f : α → List β)
    (hf : ∀ x, (f x).length = 7) (l : List α) :
    chunks7 (l.flatMap f) = l.map f := by
  induction l with
  | nil => rfl
  | cons x t ih =>
    rw [List.flatMap_cons]
    have h7 := hf x
    rcases hfx : f x with _ | ⟨y1, _ | ⟨y2, _ | ⟨y3, _ | ⟨y4, _ | ⟨y5, _ | ⟨y6, _ |
      ⟨y7, rest⟩⟩⟩⟩⟩⟩⟩ <;>
      rw [hfx] at h7 <;> simp only [List.length_nil, List.length_cons] at h7 <;>
      try omega
    have hrest : rest = [] := by
      have : rest.length = 0 := by omega
      exact List.length_eq_zero.mp this
    subst hrest
    rw [List.cons_append, List.cons_append, List.cons_append, List.cons_append,
      List.cons_append, List.cons_append, List.cons_append, List.nil_append,
      chunks7_append7, ih, List.map_cons, hfx]

theorem flatten_chunks4 {α : Type} : ∀ l : List α, (chunks4 l).flatten = l
  | [] => rfl
  | [a] => rfl
  | [a, b] => rfl
  | [a, b, c] => rfl
  | a :: b :: c :: d :: rest => by
    rw [chunks4_append4, List.flatten_cons, flatten_chunks4 rest]
    rfl

set_option synthInstance.maxSize 2000 in
set_option maxRecDepth 4000 in
/-- Syndrome decoding inverts the group encoder on clean codewords: for every
4-bit group, decoding its codeword yields the group back (the syndrome is
zero). -/
theorem decodeGroupBits_hammingGroupBits :
    ∀ a < 2, ∀ b < 2, ∀ c < 2, ∀ d < 2,
      decodeGroupBits (hammingGroupBits [a, b, c, d]) = [a, b, c, d] := by
  decide

theorem bitsToBytes_length (l : List Nat) : (bitsToBytes l).length = l.length / 8 := by
  induction l using bitsToBytes.induct with
  | case1 b7 b6 b5 b4 b3 b2 b1 b0 rest ih =>
    rw [bitsToBytes]
    simp only [List.length_cons, ih]
    omega
  | case2 l h =>
    rcases l with _ | ⟨a, _ | ⟨b, _ | ⟨c, _ | ⟨d, _ | ⟨e, _ | ⟨f, _ | ⟨g, _ |
      ⟨i, t⟩⟩⟩⟩⟩⟩⟩⟩
    · rfl
    · simp [bitsToBytes]
    · simp [bitsToBytes]
    · simp [bitsToBytes]
    · simp [bitsToBytes]
    · simp [bitsToBytes]
    · simp [bitsToBytes]
    · simp [bitsToBytes]
    · exact absurd rfl (h a b c d e f g i t)

theorem flatMap_const_length {α β : Type} (f : α → List β) (n : Nat)
    (hf : ∀ x, (f x).length = n) (l : List α) :
    (l.flatMap f).length = n * l.length := by
  induction l with
  | nil => simp
  | cons x t ih =>
    rw [List.flatMap_cons, List.length_append, ih, hf x, List.length_cons]
    ring

theorem hammingGroupBits_length (g : List Nat) : (hammingGroupBits g).length = 7 := rfl

theorem chunks4_length {α : Type} : ∀ l : List α, (chunks4 l).length = (l.length + 3) / 4
  | [] => by simp [chunks4]
  | [_] => by simp [chunks4]
  | [_, _] => by simp [chunks4]
  | [_, _, _] => by simp [chunks4]
  | a :: b :: c :: d :: rest => by
    rw [chunks4_append4, List.length_cons, chunks4_length rest]
    simp only [List.length_cons]
    omega

theorem chunks4_mem_subset {α : Type} :
    ∀ l : List α, ∀ g ∈ chunks4 l, ∀ x ∈ g, x ∈ l
  | [], g, hg => by simp [chunks4] at hg
  | [a], g, hg => by
    simp only [chunks4, List.mem_singleton] at hg
    subst hg
    exact fun x hx => hx
  | [a, b], g, hg => by
    simp only [chunks4, List.mem_singleton] at hg
    subst hg
    exact fun x hx => hx
  | [a, b, c], g, hg => by
    simp only [chunks4, List.mem_singleton] at hg
    subst hg
    exact fun x hx => hx
  | a :: b :: c :: d :: rest, g, hg => by
    rw [chunks4_append4, List.mem_cons] at hg
    rcases hg with hg | hg
    · subst hg
      intro x hx
      simp only [List.mem_cons] at hx ⊢
      tauto
    · intro x hx
      have := chunks4_mem_subset rest g hg x hx
      simp only [List.mem_cons]
      tauto

theorem chunks4_shape {α : Type} :
    ∀ l : List α, l.length % 4 = 0 → ∀ g ∈ chunks4 l, ∃ a b c d, g = [a, b, c, d]
  | [], _, g, hg => by simp [chunks4] at hg
  | [a], h, g, hg => by simp at h
  | [a, b], h, g, hg => by simp at h
  | [a, b, c], h, g, hg => by simp at h
  | a :: b :: c :: d :: rest, h, g, hg => by
    rw [chunks4_append4, List.mem_cons] at hg
    rcases hg with hg | hg
    · exact ⟨a, b, c, d, hg⟩
    · refine chunks4_shape rest ?_ g hg
      simp only [List.length_cons] at h
      omega

/-- One encoded block is always 7 bytes. -/
theorem hamming74_encode_length (block : List Nat) (h : block.length ≤ 4) :
    (hamming74_encode block).length = 7 := by
  unfold hamming74_encode
  rw [bitsToBytes_length,
    flatMap_const_length hammingGroupBits 7 hammingGroupBits_length,
    chunks4_length, bytesToBits_length, List.length_append, List.length_replicate]
  omega

/-- Decoding an encoded block with its original length recovers the block:
the single-block round trip of the byte-stream Hamming codec. -/
theorem hamming74_decode_encode (block : List Nat) (hlen : block.length ≤ 4)
    (hb : ∀ b ∈ block, b < 256) :
    hamming74_decode (hamming74_encode block) block.length = block := by
  set padded := block ++ List.replicate (4 - block.length) 0 with hpad
  have hpadlen : padded.length = 4 := by
    rw [hpad, List.length_append, List.length_replicate]
    omega
  have hpadbytes : ∀ b ∈ padded, b < 256 := by
    intro b hbm
    rcases List.mem_append.mp hbm with hm | hm
    · exact hb b hm
    · rw [List.eq_of_mem_replicate hm]
      norm_num
  have hbitslen : (bytesToBits padded).length = 32 := by
    rw [bytesToBits_length, hpadlen]
  have hbitsle : ∀ b ∈ bytesToBits padded, b ≤ 1 := bytesToBits_le_one padded
  have hEle : ∀ b ∈ (chunks4 (bytesToBits padded)).flatMap hammingGroupBits, b ≤ 1 := by
    intro b hbm
    rw [List.mem_flatMap] at hbm
    obtain ⟨g, hg, hbg⟩ := hbm
    exact hammingGroupBits_le_one g
      (fun x hx => hbitsle x (chunks4_mem_subset _ g hg x hx)) b hbg
  have hElen : ((chunks4 (bytesToBits padded)).flatMap hammingGroupBits).length = 56 := by
    rw [flatMap_const_length hammingGroupBits 7 hammingGroupBits_length,
      chunks4_length, hbitslen]
  unfold hamming74_decode hamming74_encode
  rw [← hpad, bytesToBits_bitsToBytes _ hEle (by rw [hElen]),
    chunks7_flatMap_seven hammingGroupBits hammingGroupBits_length,
    List.flatMap_map]
  have hgroups : (chunks4 (bytesToBits padded)).flatMap
        (fun g => decodeGroupBits (hammingGroupBits g)) =
      (chunks4 (bytesToBits padded)).flatten := by
    rw [List.flatMap_def, List.map_congr_left (fun g hg => ?_), List.map_id']
    obtain ⟨a, b, c, d, hgshape⟩ :=
      chunks4_shape (bytesToBits padded) (by rw [hbitslen]) g hg
    have hx : ∀ x ∈ g, x < 2 := fun x hx => by
      have := hbitsle x (chunks4_mem_subset _ g hg x hx)
      omega
    subst hgshape
    show decodeGroupBits (hammingGroupBits [a, b, c, d]) = [a, b, c, d]
    exact decodeGroupBits_hammingGroupBits
      a (hx a (by simp)) b (hx b (by simp)) c (hx c (by simp)) d (hx d (by simp))
  rw [hgroups, flatten_chunks4, bitsToBytes_bytesToBits padded hpadbytes, hpad]
  exact List.take_left block _

theorem chunks4_mem_length_le {α : Type} :
    ∀ l : List α, ∀ g ∈ chunks4 l, g.length ≤ 4
  | [], g, hg => by simp [chunks4] at hg
  | [a], g, hg => by
    simp only [chunks4, List.mem_singleton] at hg
    simp [hg]
  | [a, b], g, hg => by
    simp only [chunks4, List.mem_singleton] at hg
    simp [hg]
  | [a, b, c], g, hg => by
    simp only [chunks4, List.mem_singleton] at hg
    simp [hg]
  | a :: b :: c :: d :: rest, g, hg => by
    rw [chunks4_append4, List.mem_cons] at hg
    rcases hg with hg | hg
    · simp [hg]
    · exact chunks4_mem_length_le rest g hg

theorem flatMap_length_of_mem {α β : Type} (f : α → List β) (n : Nat) :
    ∀ l : List α, (∀ x ∈ l, (f x).length = n) → (l.flatMap f).length = n * l.length := by
  intro l
  induction l with
  | nil => simp
  | cons x t ih =>
    intro h
    rw [List.flatMap_cons, List.length_append, ih (fun y hy => h y (by simp [hy])),
      h x (by simp), List.length_cons]
    ring

theorem blocks7_append7 {α : Type} (x1 x2 x3 x4 x5 x6 x7 : α) (rest : List α) :
    blocks7 (x1 :: x2 :: x3 :: x4 :: x5 :: x6 :: x7 :: rest) =
      [x1, x2, x3, x4, x5, x6, x7] :: blocks7 rest := rfl

/-- The 7-byte block slices of a concatenation of 7-byte encoded blocks are
exactly those blocks. -/
theorem blocks7_flatMap_seven {α β : Type} (f : α → List β) (l : List α)
    (hf : ∀ x ∈ l, (f x).length = 7) :
    blocks7 (l.flatMap f) = l.map f := by
  induction l with
  | nil => rfl
  | cons x t ih =>
    rw [List.flatMap_cons]
    have h7 := hf x (by simp)
    rcases hfx : f x with _ | ⟨y1, _ | ⟨y2, _ | ⟨y3, _ | ⟨y4, _ | ⟨y5, _ | ⟨y6, _ |
      ⟨y7, rest⟩⟩⟩⟩⟩⟩⟩ <;>
      rw [hfx] at h7 <;> simp only [List.length_nil, List.length_cons] at h7 <;>
      try omega
    have hrest : rest = [] := by
      have : rest.length = 0 := by omega
      exact List.length_eq_zero.mp this
    subst hrest
    rw [List.cons_append, List.cons_append, List.cons_append, List.cons_append,
      List.cons_append, List.cons_append, List.cons_append, List.nil_append,
      blocks7_append7, ih (fun y hy => hf y (by simp [hy])), List.map_cons, hfx]

/-- Replaying `Frame.check_frame`'s decode loop over the encoded blocks of a
message recovers the message: each block contributes its original bytes and
the loop stops exactly when the declared byte count is reached. -/
theorem decodeLoop_inverts :
    ∀ (m acc : List Nat), (∀ b ∈ m, b < 256) →
      decodeLoop (acc.length + m.length) ((chunks4 m).map hamming74_encode) acc =
        acc ++ m
  | [], acc, _ => by simp [chunks4, decodeLoop]
  | [a], acc, h => by
    rw [show chunks4 [a] = [[a]] from rfl, List.map_cons, List.map_nil, decodeLoop]
    have hglen : min 4 (acc.length + [a].length - acc.length) = 1 := by
      simp
    rw [hglen, show (1 : Nat) = [a].length from rfl,
      hamming74_decode_encode [a] (by simp) h]
    rw [if_pos (by simp [List.length_append])]
  | [a, b], acc, h => by
    rw [show chunks4 [a, b] = [[a, b]] from rfl, List.map_cons, List.map_nil, decodeLoop]
    have hglen : min 4 (acc.length + [a, b].length - acc.length) = 2 := by
      simp
    rw [hglen, show (2 : Nat) = [a, b].length from rfl,
      hamming74_decode_encode [a, b] (by simp) h]
    rw [if_pos (by simp [List.length_append])]
  | [a, b, c], acc, h => by
    rw [show chunks4 [a, b, c] = [[a, b, c]] from rfl, List.map_cons, List.map_nil,
      decodeLoop]
    have hglen : min 4 (acc.length + [a, b, c].length - acc.length) = 3 := by
      simp
    rw [hglen, show (3 : Nat) = [a, b, c].length from rfl,
      hamming74_decode_encode [a, b, c] (by simp) h]
    rw [if_pos (by simp [List.length_append])]
  | a :: b :: c :: d :: rest, acc, h => by
    rw [chunks4_append4, List.map_cons, decodeLoop]
    have hglen : min 4 (acc.length + (a :: b :: c :: d :: rest).length - acc.length) = 4 := by
      simp only [List.length_cons]
      omega
    rw [hglen, show (4 : Nat) = [a, b, c, d].length from rfl,
      hamming74_decode_encode [a, b, c, d] (by simp)
        (fun x hx => h x (by simp only [List.mem_cons] at hx ⊢; tauto))]
    rcases rest with _ | ⟨e, t⟩
    · rw [if_pos (by simp)]
    · rw [if_neg (by simp only [List.length_append, List.length_cons, List.length_nil]; omega)]
      have ih := decodeLoop_inverts (e :: t) (acc ++ [a, b, c, d])
        (fun x hx => h x (by simp only [List.mem_cons] at hx ⊢; tauto))
      rw [List.length_append] at ih
      have harith : acc.length + [a, b, c, d].length + (e :: t).length =
          acc.length + (a :: b :: c :: d :: e :: t).length := by
        simp only [List.length_cons, List.length_nil]
        omega
      rw [harith] at ih
      rw [ih, List.append_assoc]
      rfl

theorem calc_crc_lt (l : List Nat) (p : Nat) : calc_crc l p < 65536 := by
  unfold calc_crc
  suffices H : ∀ (l : List Nat) (c : Nat), c < 65536 →
      l.foldl
        (fun crc byte =>
          (List.range 8).foldl
            (fun crc i =>
              let bit := (byte >>> (7 - i)) &&& 1
              crcStep p (crc ^^^ (bit <<< 15)))
            crc)
        c < 65536 by
    exact H l 0xFFFF (by norm_num)
  intro l
  induction l with
  | nil => exact fun c h => h
  | cons b t ih =>
    intro c hc
    rw [List.foldl_cons]
    apply ih
    have hinner : ∀ (r : List Nat) (c : Nat), c < 65536 →
        r.foldl
          (fun crc i =>
            let bit := (b >>> (7 - i)) &&& 1
            crcStep p (crc ^^^ (bit <<< 15)))
          c < 65536 := by
      intro r
      induction r with
      | nil => exact fun c h => h
      | cons i t2 ih2 =>
        intro c hc
        rw [List.foldl_cons]
        exact ih2 _ (crcStep_lt _ _)
    exact hinner _ c hc

theorem fromBytesBE_pair (a b : Nat) : fromBytesBE [a, b] = a * 256 + b := by
  simp [fromBytesBE]

/-- The general round trip of the frame codec: any frame the encoder
produces is decoded back to exactly the sequence number, payload, fragment
id and total it was built from. -/
theorem check_create_frame (seq_num : Nat) (data : List Nat) (fid tot : Nat)
    (F : List Nat)
    (hseq : seq_num < 256) (hfid : fid < 256) (htot : tot < 256)
    (hdata : ∀ b ∈ data, b < 256) (hlen : data.length < 65536)
    (hF : create_frame seq_num data fid tot = some F) :
    check_frame F = (some seq_num, data, fid, tot) := by
  set dwh := (chunks4 data).flatMap hamming74_encode with hdwh
  set l1 := data.length / 256 with hl1
  set l2 := data.length % 256 with hl2
  set crc := calc_crc (seq_num :: fid :: tot :: (dwh ++ [l1, l2])) 0x8005 with hcrc
  have hcrclt : crc < 65536 := calc_crc_lt _ _
  have hFval : F = seq_num :: fid :: tot ::
      (dwh ++ [l1, l2, crc / 256, crc % 256]) := by
    have : create_frame seq_num data fid tot =
        some (([seq_num] ++ ([fid] ++ [tot]) ++ dwh ++ [l1, l2]) ++
          [crc / 256, crc % 256]) := by
      simp only [create_frame, toBytes1, toBytes2, if_pos hseq, if_pos hfid,
        if_pos htot, if_pos hlen, Option.bind_eq_bind, Option.pure_def,
        Option.some_bind, ← hdwh, ← hl1, ← hl2, if_pos hcrclt]
      rw [show [seq_num] ++ ([fid] ++ [tot]) ++ dwh ++ [l1, l2] =
        seq_num :: fid :: tot :: (dwh ++ [l1, l2]) by simp]
      rw [← hcrc, if_pos hcrclt, Option.some_bind]
    rw [this] at hF
    simp only [Option.some.injEq] at hF
    rw [← hF]
    simp
  have hdwhlen : dwh.length = 7 * (chunks4 data).length := by
    rw [hdwh]
    exact flatMap_length_of_mem _ 7 _ (fun blk hblk =>
      hamming74_encode_length blk (chunks4_mem_length_le data blk hblk))
  have hFlen : F.length = dwh.length + 7 := by
    rw [hFval]
    simp [List.length_append]
  -- the three header bytes
  have hget0 : F.getD 0 0 = seq_num := by rw [hFval]; rfl
  have hget1 : F.getD 1 0 = fid := by rw [hFval]; rfl
  have hget2 : F.getD 2 0 = tot := by rw [hFval]; rfl
  -- the FEC region slice frame[3:-4]
  have hslice : (F.drop 3).take (F.length - 7) = dwh := by
    rw [hFval]
    simp only [List.drop_succ_cons, List.drop_zero]
    have hl : (seq_num :: fid :: tot ::
        (dwh ++ [l1, l2, crc / 256, crc % 256])).length - 7 = dwh.length := by
      simp only [List.length_cons, List.length_append, List.length_nil]
      omega
    rw [hl]
    exact List.take_left' rfl
  -- the original_length field frame[-4:-2] and the CRC field frame[-2:]
  have hsplit4 : F = (seq_num :: fid :: tot :: dwh) ++ [l1, l2, crc / 256, crc % 256] := by
    rw [hFval]
    simp
  have hsplit2 : F = (seq_num :: fid :: tot :: (dwh ++ [l1, l2])) ++
      [crc / 256, crc % 256] := by
    rw [hFval]
    simp
  have holslice : (F.drop (F.length - 4)).take ((F.length - 2) - (F.length - 4)) =
      [l1, l2] := by
    have h2 : (F.length - 2) - (F.length - 4) = 2 := by omega
    have h1 : F.length - 4 = dwh.length + 3 := by omega
    rw [h2, h1]
    conv_lhs => rw [hsplit4]
    rw [List.drop_left' (by simp only [List.length_cons])]
    rfl
  have hol : fromBytesBE [l1, l2] = data.length := by
    rw [fromBytesBE_pair]
    omega
  have hrecv : F.drop (F.length - 2) = [crc / 256, crc % 256] := by
    have h1 : F.length - 2 = dwh.length + 5 := by omega
    rw [h1]
    conv_lhs => rw [hsplit2]
    exact List.drop_left'
      (by simp only [List.length_cons, List.length_append, List.length_nil])
  have hrecvval : fromBytesBE [crc / 256, crc % 256] = crc := by
    rw [fromBytesBE_pair]
    omega
  have hblocks : blocks7 dwh = (chunks4 data).map hamming74_encode := by
    rw [hdwh]
    exact blocks7_flatMap_seven _ _ (fun blk hblk =>
      hamming74_encode_length blk (chunks4_mem_length_le data blk hblk))
  have hdecoded : decodeLoop data.length (blocks7 dwh) [] = data := by
    rw [hblocks]
    have h := decodeLoop_inverts data [] hdata
    simpa using h
  unfold check_frame
  rw [if_pos (show 3 ≤ F.length by omega)]
  simp only [hget0, hget1, hget2, hslice, holslice, hol, hrecv, hrecvval, hdecoded,
    List.take_length, ← hl1, ← hl2, ← hcrc, if_pos rfl]
  simp

/-! ## Claims about the frame codec -/

/-- A successful `create_frame` certifies the field bounds (otherwise some
`to_bytes` would have raised, i.e. returned `none`). -/
theorem create_frame_some_bounds (s : Nat) (d : List Nat) (f t : Nat) (F : List Nat)
    (h : create_frame s d f t = some F) :
    s < 256 ∧ f < 256 ∧ t < 256 ∧ d.length < 65536 := by
  by_cases hs : s < 256
  · by_cases hf : f < 256
    · by_cases ht : t < 256
      · by_cases hl : d.length < 65536
        · exact ⟨hs, hf, ht, hl⟩
        · simp [create_frame, toBytes1, toBytes2, hs, hf, ht, hl] at h
      · simp [create_frame, toBytes1, toBytes2, hs, hf, ht] at h
    · simp [create_frame, toBytes1, toBytes2, hs, hf] at h
  · simp [create_frame, toBytes1, hs] at h

/-- **C1.** Frame codec round trip: for every byte sequence `m` and every
sequence number `seq < 256`, decoding the uncorrupted frame produced by
`Frame.create_frame(seq, m)` (fragment defaults `0` and `1`) returns exactly
`(seq, m, 0, 1)`. The hypothesis `create_frame seq m 0 1 = some F` states
that the encoder produced the frame `F` (it does for every `m` shorter than
65536 bytes); the byte-stream Hamming codec it uses is modelled from the
specification, `hamming74_encode`/`hamming74_decode` being absent from
`src/utils/hamming.py`. -/
theorem frame_codec_round_trip (seq_num : Nat) (m F : List Nat)
    (hm : ∀ b ∈ m, b < 256) (hF : create_frame seq_num m 0 1 = some F) :
    check_frame F = (some seq_num, m, 0, 1) := by
  obtain ⟨hs, hf, ht, hl⟩ := create_frame_some_bounds _ _ _ _ _ hF
  exact check_create_frame _ _ _ _ _ hs hf ht hm hl hF

set_option maxRecDepth 8000 in
/-- Witness for C1 at `seq = 1`, `m = b"He"`. -/
theorem frame_codec_round_trip_witness :
    (∀ b ∈ ([72, 101] : List Nat), b < 256) ∧
    create_frame 1 [72, 101] 0 1 = some ((create_frame 1 [72, 101] 0 1).getD []) ∧
    check_frame ((create_frame 1 [72, 101] 0 1).getD []) = (some 1, [72, 101], 0, 1) :=
  ⟨by decide, by decide,
    frame_codec_round_trip 1 [72, 101] ((create_frame 1 [72, 101] 0 1).getD [])
      (by decide) (by decide)⟩

set_option maxRecDepth 4000 in
/-- **C2** (refuted: the decoder in the source does not match the encoder).
`hamming74 1 = 105 = 0b1101001` is the clean codeword of the 4-bit group
`0001`, yet `fix_hamming74_group 105` computes a nonzero syndrome, reports
an error and "corrects" the clean codeword to `97`; and for the codeword
with its data bit `d0` (bit 4) flipped, the returned word `57` carries the
data nibble `9`, not the original `1`. The syndrome lines of
`fix_hamming74_group` read different bit positions than the parity
relations `hamming74` encodes with (on clean codewords its `s3` computes
`d0 ⊕ d3`), so single-bit correction fails. -/
theorem hamming_fix_corrupts_clean_codeword :
    hamming74 1 = 105 ∧
    fix_hamming74_group 105 = (97, 3, true) ∧
    hammingDataBits 97 = 1 ∧
    fix_hamming74_group (105 ^^^ (1 <<< 4)) = (57, 6, true) ∧
    hammingDataBits 57 = 9 := by
  decide

/-- Witness for C6 on the bytes of `b"1011"` (the self-test input of
`src/utils/crc.py`) with the protocol polynomial. -/
theorem calc_crc_eq_spec_reference_witness :
    (∀ b ∈ ([49, 48, 49, 49] : List Nat), b < 256) ∧
    calc_crc [49, 48, 49, 49] 0x8005 = crcSpec [49, 48, 49, 49] 0x8005 :=
  ⟨by decide, calc_crc_eq_spec_reference [49, 48, 49, 49] 0x8005 (by decide)⟩

set_option maxRecDepth 8000 in
/-- **C8 counterexample.** A 6-byte frame (shorter than the 7-byte
header+trailer minimum) is not rejected as malformed before parsing:
`check_frame` parses it with Python's clamping slices and classifies it by
the CRC comparison, returning the CRC-error (`Integrity`) outcome. -/
theorem short_frame_classified_as_crc_error :
    check_frame [0, 0, 0, 0, 0, 0] = (none, crcErrorBytes, 0, 0) := by
  decide

/-- **C8 (amended).** `Frame.check_frame` has no minimum-length rejection:
inputs of fewer than 3 bytes fail header indexing (`IndexError`) and take
the exception branch's generic error outcome, while every input of 3 or
more bytes — including the 3..6-byte range the claim says must be rejected
as `Malformed` before parsing — is parsed and classified by the CRC
comparison, never via a distinct malformed outcome. -/
theorem check_frame_short_inputs :
    (∀ frame : List Nat, frame.length < 3 →
      check_frame frame = (none, frameCheckErrorBytes, 0, 0)) ∧
    (∀ frame : List Nat, 3 ≤ frame.length →
      check_frame frame ≠ (none, frameCheckErrorBytes, 0, 0)) := by
  constructor
  · intro frame h
    unfold check_frame
    rw [if_neg (by omega)]
  · intro frame h
    unfold check_frame
    rw [if_pos h]
    dsimp only
    split
    · intro hc
      simp at hc
    · intro hc
      simp only [Prod.mk.injEq] at hc
      exact absurd hc.2.1 (by decide)

/-- Witness for the amended C8 at the 2-byte input `[0, 0]`. -/
theorem check_frame_short_inputs_witness :
    ([0, 0] : List Nat).length < 3 ∧
    check_frame [0, 0] = (none, frameCheckErrorBytes, 0, 0) :=
  ⟨by decide, check_frame_short_inputs.1 [0, 0] (by decide)⟩

/-- **C10.** Decoder totality: on every input byte string whatsoever,
`check_frame` returns one of exactly three 4-tuples — a successful decode
`(some seq, data, fragment_id, total_fragments)`, the CRC-error outcome, or
the exception-branch outcome (the Python `try/except` catches the only
raising statement, the header indexing). Callers that unpack four values,
such as `client.receive`, therefore never fail on the decoder's error
branches. -/
theorem check_frame_total (frame : List Nat) :
    (∃ s d f t, check_frame frame = (some s, d, f, t)) ∨
    check_frame frame = (none, crcErrorBytes, 0, 0) ∨
    check_frame frame = (none, frameCheckErrorBytes, 0, 0) := by
  unfold check_frame
  by_cases h3 : 3 ≤ frame.length
  · rw [if_pos h3]
    dsimp only
    split
    · exact Or.inl ⟨_, _, _, _, rfl⟩
    · exact Or.inr (Or.inl rfl)
  · rw [if_neg h3]
    exact Or.inr (Or.inr rfl)

/-! ## Claims about fragmentation (C7) -/

theorem seqOptions_map_some {α β : Type} (f : α → Option β) (g : α → β)
    (l : List α) (h : ∀ x ∈ l, f x = some (g x)) :
    seqOptions (l.map f) = some (l.map g) := by
  induction l with
  | nil => rfl
  | cons x t ih =>
    rw [List.map_cons, List.map_cons, h x (by simp), seqOptions,
      ih (fun y hy => h y (by simp [hy]))]
    rfl

theorem seqOptions_eq_none {α β : Type} (f : α → Option β) (l : List α) (x : α)
    (hx : x ∈ l) (hf : f x = none) : seqOptions (l.map f) = none := by
  induction l with
  | nil => simp at hx
  | cons a t ih =>
    rw [List.map_cons]
    cases ha : f a with
    | none => rfl
    | some v =>
      rw [seqOptions]
      rcases List.mem_cons.mp hx with hxa | hxt
      · subst hxa
        rw [ha] at hf
        simp at hf
      · rw [ih hxt]
        rfl

theorem fragmentChunk_length_le (m : List Nat) (i : Nat) :
    (fragmentChunk m i).length ≤ FRAGMENT_SIZE := by
  unfold fragmentChunk
  simp only [List.length_take, FRAGMENT_SIZE]
  omega

theorem fragmentChunk_mem (m : List Nat) (i : Nat) :
    ∀ b ∈ fragmentChunk m i, b ∈ m := by
  intro b hb
  unfold fragmentChunk at hb
  exact List.mem_of_mem_drop (List.mem_of_mem_take hb)

/-- Shifting the fragment index by one drops one fragment-size prefix. -/
theorem fragmentChunk_succ (m : List Nat) (i : Nat) (h16 : 16 ≤ m.length) :
    fragmentChunk m (i + 1) = fragmentChunk (m.drop 16) i := by
  unfold fragmentChunk
  simp only [FRAGMENT_SIZE, List.length_drop]
  rw [show (i + 1) * 16 = 16 + i * 16 by ring, ← List.drop_drop]
  congr 1
  omega

theorem fragmentChunk_zero (m : List Nat) : fragmentChunk m 0 = m.take 16 := by
  unfold fragmentChunk
  simp only [FRAGMENT_SIZE, Nat.zero_mul, List.drop_zero, Nat.zero_add,
    Nat.sub_zero]
  by_cases h : 16 ≤ m.length
  · rw [min_eq_left h]
  · rw [min_eq_right (by omega)]
    rw [List.take_of_length_le (by omega), List.take_of_length_le (by omega)]

/-- The in-order concatenation of all fragment payload slices is the
message. -/
theorem flatten_fragmentChunks :
    ∀ (t : Nat) (m : List Nat), (m.length + 15) / 16 = t →
      ((List.range t).map (fragmentChunk m)).flatten = m := by
  intro t
  induction t with
  | zero =>
    intro m hm
    have : m.length = 0 := by omega
    rw [List.length_eq_zero] at this
    subst this
    rfl
  | succ t ih =>
    intro m hm
    rw [List.range_succ_eq_map, List.map_cons, List.flatten_cons,
      fragmentChunk_zero, List.map_map]
    have hcomp : (fragmentChunk m ∘ Nat.succ) = fun i => fragmentChunk m (i + 1) := by
      funext i
      rfl
    by_cases h16 : 16 ≤ m.length
    · have : ((List.range t).map (fragmentChunk m ∘ Nat.succ)).flatten = m.drop 16 := by
        rw [hcomp]
        have hdrop : ((List.range t).map (fun i => fragmentChunk (m.drop 16) i)).flatten =
            m.drop 16 := by
          refine ih (m.drop 16) ?_
          rw [List.length_drop]
          omega
        rw [← hdrop]
        congr 1
        exact List.map_congr_left (fun i _ => fragmentChunk_succ m i h16)
      rw [this, List.take_append_drop]
    · -- fewer than 16 bytes: a single fragment, t = 0
      have ht : t = 0 := by omega
      subst ht
      simp only [List.range_zero, List.map_nil, List.flatten_nil, List.append_nil]
      rw [List.take_of_length_le (by omega)]

/-- **C7 (amended).** For an 8-bit sequence number and any message longer
than `FRAGMENT_SIZE` but of at most `255 * FRAGMENT_SIZE` bytes (so that
`total_fragments` fits its one-byte field), `create_fragmented_frames`
returns exactly `⌈len(m) / FRAGMENT_SIZE⌉` frames; frame `i` decodes to
`(seq, chunk i, i, total)` — fragment ids ascending from 0 — each chunk is
at most `FRAGMENT_SIZE` bytes, and the in-order concatenation of the chunks
is `m`. (Longer messages make `create_frame` raise `OverflowError`; see the
counterexample `create_fragmented_frames_overflow`.) -/
theorem create_fragmented_frames_shape (seq_num : Nat) (m : List Nat)
    (hseq : seq_num < 256) (hm : ∀ b ∈ m, b < 256)
    (hlong : FRAGMENT_SIZE < m.length) (hbound : m.length ≤ 255 * FRAGMENT_SIZE) :
    ∃ frames, create_fragmented_frames seq_num m = some frames ∧
      frames.length = (m.length + FRAGMENT_SIZE - 1) / FRAGMENT_SIZE ∧
      (∀ i, i < frames.length →
        check_frame (frames.getD i []) =
          (some seq_num, fragmentChunk m i, i,
            (m.length + FRAGMENT_SIZE - 1) / FRAGMENT_SIZE)) ∧
      (∀ i, (fragmentChunk m i).length ≤ FRAGMENT_SIZE) ∧
      ((List.range ((m.length + FRAGMENT_SIZE - 1) / FRAGMENT_SIZE)).map
        (fragmentChunk m)).flatten = m := by
  simp only [FRAGMENT_SIZE] at hlong hbound
  set total := (m.length + FRAGMENT_SIZE - 1) / FRAGMENT_SIZE with htotal
  have htotal16 : total = (m.length + 15) / 16 := by
    rw [htotal]
    simp [FRAGMENT_SIZE]
  have htotlt : total < 256 := by
    rw [htotal16]
    omega
  have hsome : ∀ i ∈ List.range total,
      create_frame seq_num (fragmentChunk m i) i total =
        some ((create_frame seq_num (fragmentChunk m i) i total).getD []) := by
    intro i hi
    rw [List.mem_range] at hi
    have hchunklt : (fragmentChunk m i).length < 65536 := by
      have := fragmentChunk_length_le m i
      simp [FRAGMENT_SIZE] at this
      omega
    obtain ⟨F, hF⟩ : ∃ F, create_frame seq_num (fragmentChunk m i) i total = some F := by
      simp only [create_frame, toBytes1, toBytes2, Option.bind_eq_bind, Option.pure_def,
        Option.some_bind, if_pos hseq, if_pos (show i < 256 by omega), if_pos htotlt,
        if_pos hchunklt, if_pos (calc_crc_lt _ _)]
      exact ⟨_, rfl⟩
    rw [hF]
    rfl
  refine ⟨(List.range total).map
      (fun i => (create_frame seq_num (fragmentChunk m i) i total).getD []),
    ?_, ?_, ?_, ?_, ?_⟩
  · unfold create_fragmented_frames
    rw [if_neg (by simp only [FRAGMENT_SIZE]; omega), ← htotal]
    exact seqOptions_map_some _ _ _ hsome
  · simp
  · intro i hi
    simp only [List.length_map, List.length_range] at hi
    have hgd : ((List.range total).map
        (fun i => (create_frame seq_num (fragmentChunk m i) i total).getD [])).getD i [] =
        (create_frame seq_num (fragmentChunk m i) i total).getD [] := by
      rw [List.getD_eq_getElem?_getD, List.getElem?_map, List.getElem?_range hi]
      rfl
    rw [hgd]
    refine check_create_frame seq_num (fragmentChunk m i) i total _ hseq
      (by omega) htotlt (fun b hb => hm b (fragmentChunk_mem m i b hb))
      (by have := fragmentChunk_length_le m i; simp only [FRAGMENT_SIZE] at this; omega)
      (hsome i (List.mem_range.mpr hi))
  · exact fun i => fragmentChunk_length_le m i
  · exact flatten_fragmentChunks total m htotal16.symm

/-- **C7 counterexample.** The claim quantifies over every message longer
than `FRAGMENT_SIZE`, but a 4081-byte message needs 256 fragments, and
`total_fragments.to_bytes(1)` then raises `OverflowError` inside
`create_frame`, so `create_fragmented_frames` produces no frames at all. -/
theorem create_fragmented_frames_overflow :
    create_fragmented_frames 0 (List.replicate 4081 0) = none := by
  unfold create_fragmented_frames
  rw [if_neg (by simp only [List.length_replicate, FRAGMENT_SIZE]; omega)]
  have h256 : ((List.replicate 4081 (0 : Nat)).length + FRAGMENT_SIZE - 1) /
      FRAGMENT_SIZE = 256 := by
    simp only [List.length_replicate, FRAGMENT_SIZE]
  rw [h256]
  refine seqOptions_eq_none _ _ 0 (List.mem_range.mpr (by norm_num)) ?_
  cases h : create_frame 0 (fragmentChunk (List.replicate 4081 0) 0) 0 256 with
  | none => rfl
  | some F => exact absurd (create_frame_some_bounds _ _ _ _ _ h).2.2.1 (by norm_num)

/-- Witness for the amended C7: the spec scenario of a 40-byte message
(3 fragments of 16, 16 and 8 bytes). -/
theorem create_fragmented_frames_shape_witness :
    (0 : Nat) < 256 ∧ (∀ b ∈ List.replicate 40 (7 : Nat), b < 256) ∧
    FRAGMENT_SIZE < (List.replicate 40 (7 : Nat)).length ∧
    (List.replicate 40 (7 : Nat)).length ≤ 255 * FRAGMENT_SIZE ∧
    (∃ frames, create_fragmented_frames 0 (List.replicate 40 (7 : Nat)) = some frames ∧
      frames.length = ((List.replicate 40 (7 : Nat)).length + FRAGMENT_SIZE - 1) /
        FRAGMENT_SIZE ∧
      (∀ i, i < frames.length →
        check_frame (frames.getD i []) =
          (some 0, fragmentChunk (List.replicate 40 (7 : Nat)) i, i,
            ((List.replicate 40 (7 : Nat)).length + FRAGMENT_SIZE - 1) / FRAGMENT_SIZE)) ∧
      (∀ i, (fragmentChunk (List.replicate 40 (7 : Nat)) i).length ≤ FRAGMENT_SIZE) ∧
      ((List.range (((List.replicate 40 (7 : Nat)).length + FRAGMENT_SIZE - 1) /
        FRAGMENT_SIZE)).map (fragmentChunk (List.replicate 40 (7 : Nat)))).flatten =
        List.replicate 40 (7 : Nat)) :=
  ⟨by decide, by decide, by decide, by decide,
    create_fragmented_frames_shape 0 (List.replicate 40 (7 : Nat))
      (by decide) (by decide) (by decide) (by decide)⟩

/-! ## `src/udp_client.py`

The client's network effects are modelled explicitly: an incoming datagram
is a `List Nat` of bytes, `sendto` calls appear as returned ack frames /
attempt counters, and the blocking `recvfrom`-with-timeout is abstracted as
an environment (`rounds`/`env`) giving the frames received before each
timeout. The loops take a `fuel` parameter; `none`/a `none` outcome means
the fuel was exhausted while the Python loop would still be running. -/

/-- `MAX_RETRY` from `src/udp_client.py`. -/
def MAX_RETRY : Nat := 10

/-- ASCII bytes of `b'ACK'`. -/
def ackBytes : List Nat := [65, 67, 75]

/-- Python dict lookup (`m[k]` / `k in m`). -/
def dictGet {α : Type} : List (Nat × α) → Nat → Option α
  | [], _ => none
  | (k', v) :: rest, k => if k' = k then some v else dictGet rest k

/-- Python dict assignment `m[k] = v`: overwrite the existing key or append
a new one; the number of keys grows only for a new key. -/
def dictSet {α : Type} : List (Nat × α) → Nat → α → List (Nat × α)
  | [], k, v => [(k, v)]
  | (k', v') :: rest, k, v =>
    if k' = k then (k, v) :: rest else (k', v') :: dictSet rest k v

/-- Python `del m[k]`. -/
def dictDel {α : Type} : List (Nat × α) → Nat → List (Nat × α)
  | [], _ => []
  | (k', v') :: rest, k => if k' = k then rest else (k', v') :: dictDel rest k

/-- The receiver state of `client`: `expected_seq` and the per-sequence
fragment buffers `{seq_num: {fragment_id: data}}`. -/
structure ClientState where
  expected_seq : Nat
  fragment_buffers : List (Nat × List (Nat × List Nat))
  deriving DecidableEq

/-- The reassembly loop `for i in range(total_fragments): ...` of
`receive_fragmented_message`: concatenate the buffered fragments in id
order, `none` when one is missing (the Python prints and returns). The
first argument of `assembleAux` counts the ids left to visit. -/
def assembleAux (buf : List (Nat × List Nat)) : Nat → Nat → Option (List Nat)
  | 0, _ => some []
  | r + 1, i =>
    match dictGet buf i with
    | none => none
    | some d => (assembleAux buf r (i + 1)).map (d ++ ·)

def assemble (buf : List (Nat × List Nat)) (total : Nat) : Option (List Nat) :=
  assembleAux buf total 0

/-- `client.receive_fragmented_message` from `src/udp_client.py`. Returns
the new state, the ACK frame sent (always, carrying the fragment id), and
the reassembled message when the buffer reached `total_fragments` distinct
ids (the Python prints the complete message at that point, unconditionally;
only the `expected_seq` toggle is gated on `seq_num == expected_seq`). -/
def receive_fragmented_message (st : ClientState) (seq_num fragment_id
    total_fragments : Nat) (fragment_data : List Nat) :
    ClientState × Option (List Nat) × Option (List Nat) :=
  let buf := (dictGet st.fragment_buffers seq_num).getD []
  let buf := dictSet buf fragment_id fragment_data
  let buffers := dictSet st.fragment_buffers seq_num buf
  let ack := create_frame seq_num ackBytes fragment_id total_fragments
  if buf.length = total_fragments then
    match assemble buf total_fragments with
    | none => ({ st with fragment_buffers := buffers }, ack, none)
    | some complete =>
      let buffers := dictDel buffers seq_num
      if seq_num = st.expected_seq then
        ({ expected_seq := 1 - st.expected_seq, fragment_buffers := buffers },
          ack, some complete)
      else
        ({ st with fragment_buffers := buffers }, ack, some complete)
  else
    ({ st with fragment_buffers := buffers }, ack, none)

/-- `client.receive` from `src/udp_client.py`, applied to one delivered
datagram: decode, drop on decode failure, route fragments to
`receive_fragmented_message`, otherwise ACK and deliver only a new
(`seq_num == expected_seq`) message, toggling `expected_seq`; a duplicate
is re-acknowledged but not delivered. Returns (state, ack sent, delivered
message). -/
def receive (st : ClientState) (frame : List Nat) :
    ClientState × Option (List Nat) × Option (List Nat) :=
  match check_frame frame with
  | (none, _, _, _) => (st, none, none)
  | (some seq_num, decode_data, fragment_id, total_fragments) =>
    if is_fragmented total_fragments then
      receive_fragmented_message st seq_num fragment_id total_fragments decode_data
    else
      let ack := create_frame seq_num ackBytes 0 1
      if seq_num = st.expected_seq then
        ({ st with expected_seq := 1 - st.expected_seq }, ack, some decode_data)
      else
        (st, ack, none)

/-- The inner `while True: recvfrom -> process ACK -> break when pending
empty` loop of `send_fragmented_message`, over the finite list of frames
the socket yields before the timeout that ends the round. -/
def processAcks (seq_num : Nat) : List (List Nat) → List Nat → List Nat
  | [], pending => pending
  | f :: rest, pending =>
    let r := check_frame f
    let ack_seq := r.1
    let ack_data := r.2.1
    let ack_fragment_id := r.2.2.1
    let pending :=
      if ack_data.take 3 = ackBytes ∧ ack_seq = some seq_num then
        pending.filter (fun i => i ≠ ack_fragment_id)
      else pending
    if pending = [] then pending else processAcks seq_num rest pending

/-- `max(retries.values())` over the fragment ids `0 .. total-1`. -/
def maxRetriesVal (retries : Nat → Nat) (total : Nat) : Nat :=
  ((List.range total).map retries).foldl max 0

/-- The outer retransmission loop of `send_fragmented_message`: while some
fragment is pending and every retry counter is below `MAX_RETRY`, send all
pending fragments (each pending fragment's counter incremented), then
process the round's incoming frames. Returns
`(pending = [] (the Boolean result), final pending set, final counters)`;
`none` when `fuel` rounds were not enough (the loop would still run). -/
def sendFragLoop (seq_num total : Nat) (rounds : Nat → List (List Nat)) :
    Nat → Nat → List Nat → (Nat → Nat) → Option (Bool × List Nat × (Nat → Nat))
  | 0, _, _, _ => none
  | fuel + 1, k, pending, retries =>
    if pending ≠ [] ∧ maxRetriesVal retries total < MAX_RETRY then
      let retries' := fun i =>
        if i ∈ pending ∧ retries i < MAX_RETRY then retries i + 1 else retries i
      let pending' := processAcks seq_num (rounds k) pending
      sendFragLoop seq_num total rounds fuel (k + 1) pending' retries'
    else
      some (decide (pending = []), pending, retries)

/-- `client.send_fragmented_message` from `src/udp_client.py`: build the
fragment frames, run the retransmission loop from
`pending = set(range(total))`, `retries = {i: 0}`, and toggle the sequence
bit on success. Returns `(result, new seq_num, final pending, final
counters)`. -/
def send_fragmented_message (seq_num : Nat) (message : List Nat)
    (rounds : Nat → List (List Nat)) (fuel : Nat) :
    Option (Bool × Nat × List Nat × (Nat → Nat)) :=
  (create_fragmented_frames seq_num message).bind (fun frames =>
    (sendFragLoop seq_num frames.length rounds fuel 0
        (List.range frames.length) (fun _ => 0)).map
      (fun r =>
        (r.1, if r.1 then 1 - seq_num else seq_num, r.2.1, r.2.2)))

/-- `client.send_small_message` from `src/udp_client.py`: while
`retries < MAX_RETRY`, build and send the frame (one transmission
attempt), then wait for one datagram: a matching ACK returns success
(toggling the sequence bit); a timeout (`env k = none`) increments
`retries`; any other received frame falls through the `if` and loops
*without* touching `retries`; a `create_frame` exception takes the outer
`except` branch, incrementing `retries` without a transmission. Returns
`((result, new seq_num) or none when fuel ran out, transmission count)`. -/
def sendSmallLoop (seq_num : Nat) (message : List Nat)
    (env : Nat → Option (List Nat)) :
    Nat → Nat → Nat → Nat → Option (Bool × Nat) × Nat
  | 0, _, _, attempts => (none, attempts)
  | fuel + 1, k, retries, attempts =>
    if retries < MAX_RETRY then
      match create_frame seq_num message 0 1 with
      | none => sendSmallLoop seq_num message env fuel (k + 1) (retries + 1) attempts
      | some _frame =>
        match env k with
        | some ack_frame =>
          let r := check_frame ack_frame
          if r.2.1 = ackBytes ∧ r.1 = some seq_num then
            (some (true, 1 - seq_num), attempts + 1)
          else
            sendSmallLoop seq_num message env fuel (k + 1) retries (attempts + 1)
        | none => sendSmallLoop seq_num message env fuel (k + 1) (retries + 1) (attempts + 1)
    else
      (some (false, seq_num), attempts)

/-! ## Claims about the receive path (C5, C9) -/

theorem getD_lt_256 (l : List Nat) (hb : ∀ b ∈ l, b < 256) (i : Nat) :
    l.getD i 0 < 256 := by
  rw [List.getD_eq_getElem?_getD]
  cases h : l[i]? with
  | none => simp
  | some v =>
    simp only [Option.getD_some]
    exact hb v (List.getElem?_mem h)

/-- The fields a successful decode returns are bytes of the frame (or the
literal 0), hence below 256. -/
theorem check_frame_fields_lt (frame : List Nat) (hb : ∀ b ∈ frame, b < 256)
    (s : Nat) (d : List Nat) (f t : Nat)
    (h : check_frame frame = (some s, d, f, t)) :
    s < 256 ∧ f < 256 ∧ t < 256 := by
  unfold check_frame at h
  by_cases h3 : 3 ≤ frame.length
  · rw [if_pos h3] at h
    dsimp only at h
    split at h
    · simp only [Prod.mk.injEq, Option.some.injEq] at h
      obtain ⟨hs, _, hf, ht⟩ := h
      exact ⟨hs ▸ getD_lt_256 frame hb 0, hf ▸ getD_lt_256 frame hb 1,
        ht ▸ getD_lt_256 frame hb 2⟩
    · simp at h
  · rw [if_neg h3] at h
    simp at h

theorem create_frame_isSome (s : Nat) (d : List Nat) (f t : Nat)
    (hs : s < 256) (hf : f < 256) (ht : t < 256) (hl : d.length < 65536) :
    ∃ F, create_frame s d f t = some F := by
  simp only [create_frame, toBytes1, toBytes2, Option.bind_eq_bind, Option.pure_def,
    Option.some_bind, if_pos hs, if_pos hf, if_pos ht, if_pos hl,
    if_pos (calc_crc_lt _ _)]
  exact ⟨_, rfl⟩

/-- **C5 (amended).** A correctly decoded *non-fragmented* frame whose
sequence number differs from `expected_seq` is acknowledged again, not
delivered, and leaves the whole receiver state unchanged. A fragment frame
whose sequence number differs from `expected_seq` is also acknowledged and
never toggles `expected_seq` — but the code prints (delivers) a reassembled
message unconditionally, so a *complete replayed fragment set* is emitted
to the application again (see `fragmented_replay_redelivered`). -/
theorem duplicate_suppression (st : ClientState) (frame : List Nat)
    (hb : ∀ b ∈ frame, b < 256) (s : Nat) (d : List Nat) (f t : Nat)
    (hcf : check_frame frame = (some s, d, f, t))
    (hdup : s ≠ st.expected_seq) :
    (is_fragmented t = false →
      receive st frame = (st, create_frame s ackBytes 0 1, none) ∧
        (create_frame s ackBytes 0 1).isSome) ∧
    (is_fragmented t = true →
      (receive st frame).1.expected_seq = st.expected_seq ∧
        (receive st frame).2.1 = create_frame s ackBytes f t ∧
        (create_frame s ackBytes f t).isSome) := by
  obtain ⟨hs, hf, ht⟩ := check_frame_fields_lt frame hb s d f t hcf
  constructor
  · intro hfrag
    refine ⟨?_, ?_⟩
    · unfold receive
      rw [hcf]
      simp only [hfrag, Bool.false_eq_true, if_false, if_neg hdup]
    · obtain ⟨F, hF⟩ := create_frame_isSome s ackBytes 0 1 hs (by norm_num)
        (by norm_num) (by decide)
      simp [hF]
  · intro hfrag
    have hrecv : receive st frame =
        receive_fragmented_message st s f t d := by
      unfold receive
      rw [hcf]
      simp only [hfrag, if_true]
    have hexp : (receive_fragmented_message st s f t d).1.expected_seq =
        st.expected_seq ∧
        (receive_fragmented_message st s f t d).2.1 =
          create_frame s ackBytes f t := by
      unfold receive_fragmented_message
      dsimp only
      by_cases hlen : (dictSet ((dictGet st.fragment_buffers s).getD []) f d).length = t
      · rw [if_pos hlen]
        cases hasm : assemble (dictSet ((dictGet st.fragment_buffers s).getD []) f d) t with
        | none => exact ⟨rfl, rfl⟩
        | some complete =>
          dsimp only
          rw [if_neg hdup]
          exact ⟨rfl, rfl⟩
      · rw [if_neg hlen]
        exact ⟨rfl, rfl⟩
    obtain ⟨F, hF⟩ := create_frame_isSome s ackBytes f t hs hf ht (by decide)
    rw [hrecv]
    exact ⟨hexp.1, hexp.2, by simp [hexp.2, hF]⟩

set_option maxRecDepth 8000 in
/-- **C5 counterexample.** Replaying the complete fragment set of an
already-delivered fragmented message re-delivers it: starting from a fresh
receiver, fragments `0` and `1` of a 2-fragment message (seq 0) deliver
`[65, 66]` and toggle `expected_seq` to 1; replaying the same two frames
reassembles and emits `[65, 66]` a second time even though the sequence
number no longer matches `expected_seq` (which stays 1). -/
theorem fragmented_replay_redelivered :
    (receive ⟨0, []⟩ ((create_frame 0 [65] 0 2).getD [])).1 =
      ⟨0, [(0, [(0, [65])])]⟩ ∧
    (receive ⟨0, []⟩ ((create_frame 0 [65] 0 2).getD [])).2.2 = none ∧
    (receive ⟨0, [(0, [(0, [65])])]⟩ ((create_frame 0 [66] 1 2).getD [])).1 =
      ⟨1, []⟩ ∧
    (receive ⟨0, [(0, [(0, [65])])]⟩ ((create_frame 0 [66] 1 2).getD [])).2.2 =
      some [65, 66] ∧
    (receive ⟨1, []⟩ ((create_frame 0 [65] 0 2).getD [])).1 =
      ⟨1, [(0, [(0, [65])])]⟩ ∧
    (receive ⟨1, []⟩ ((create_frame 0 [65] 0 2).getD [])).2.2 = none ∧
    (receive ⟨1, [(0, [(0, [65])])]⟩ ((create_frame 0 [66] 1 2).getD [])).1 =
      ⟨1, []⟩ ∧
    (receive ⟨1, [(0, [(0, [65])])]⟩ ((create_frame 0 [66] 1 2).getD [])).2.2 =
      some [65, 66] := by
  refine ⟨?_, ?_, ?_, ?_, ?_, ?_, ?_, ?_⟩ <;> decide

set_option maxRecDepth 8000 in
/-- Witness for the amended C5: a duplicate unfragmented data frame
(`seq = 0` against `expected_seq = 1`) is re-acknowledged, not delivered,
and the state is unchanged. -/
theorem duplicate_suppression_witness :
    (∀ b ∈ (create_frame 0 [72] 0 1).getD [], b < 256) ∧
    check_frame ((create_frame 0 [72] 0 1).getD []) = (some 0, [72], 0, 1) ∧
    (0 : Nat) ≠ (⟨1, []⟩ : ClientState).expected_seq ∧
    (is_fragmented 1 = false →
      receive ⟨1, []⟩ ((create_frame 0 [72] 0 1).getD []) =
        (⟨1, []⟩, create_frame 0 ackBytes 0 1, none) ∧
        (create_frame 0 ackBytes 0 1).isSome) :=
  ⟨by decide, by decide, by decide,
    (duplicate_suppression ⟨1, []⟩ ((create_frame 0 [72] 0 1).getD [])
      (by decide) 0 [72] 0 1 (by decide) (by decide)).1⟩

/-- The small-send loop only ever reports success with the toggled bit or
failure with the bit unchanged. -/
theorem sendSmallLoop_seq (seq_num : Nat) (message : List Nat)
    (env : Nat → Option (List Nat)) :
    ∀ (fuel k retries attempts : Nat) (b : Bool) (s' : Nat),
      (sendSmallLoop seq_num message env fuel k retries attempts).1 = some (b, s') →
      s' = if b then 1 - seq_num else seq_num := by
  intro fuel
  induction fuel with
  | zero =>
    intro k retries attempts b s' h
    simp [sendSmallLoop] at h
  | succ fuel ih =>
    intro k retries attempts b s' h
    rw [sendSmallLoop] at h
    by_cases hr : retries < MAX_RETRY
    · rw [if_pos hr] at h
      cases hcf : create_frame seq_num message 0 1 with
      | none =>
        rw [hcf] at h
        exact ih _ _ _ b s' h
      | some frame =>
        rw [hcf] at h
        cases henv : env k with
        | none =>
          rw [henv] at h
          exact ih _ _ _ b s' h
        | some ack_frame =>
          rw [henv] at h
          dsimp only at h
          split at h
          · simp only [Prod.mk.injEq, Option.some.injEq] at h
            rw [← h.1, ← h.2]
            rfl
          · exact ih _ _ _ b s' h
    · rw [if_neg hr] at h
      simp only [Prod.mk.injEq, Option.some.injEq] at h
      rw [← h.1, ← h.2]
      rfl

/-- **C9.** Sequence-bit discipline. Receiver: one `receive` step either
leaves `expected_seq` unchanged or toggles it, and it toggles only when a
full *new* (non-duplicate) message is accepted: the frame decoded with the
currently expected sequence number (`seq_num == expected_seq`, so not a
replay) and a complete message was delivered in that same step. Senders:
`send_fragmented_message` toggles the sequence bit exactly on success and
leaves it unchanged on retry-exhaustion failure, and so does
`send_small_message`'s loop; in either direction a bit in `{0, 1}` stays in
`{0, 1}`. -/
theorem sequence_bit_discipline :
    (∀ (st : ClientState) (frame : List Nat),
      (receive st frame).1.expected_seq = st.expected_seq ∨
      ((receive st frame).1.expected_seq = 1 - st.expected_seq ∧
        (receive st frame).2.2.isSome ∧
        (check_frame frame).1 = some st.expected_seq)) ∧
    (∀ (seq_num : Nat) (message : List Nat) (rounds : Nat → List (List Nat))
        (fuel : Nat) (b : Bool) (s' : Nat) (p : List Nat) (r : Nat → Nat),
      send_fragmented_message seq_num message rounds fuel = some (b, s', p, r) →
      s' = (if b then 1 - seq_num else seq_num) ∧ (seq_num ≤ 1 → s' ≤ 1)) ∧
    (∀ (seq_num : Nat) (message : List Nat) (env : Nat → Option (List Nat))
        (fuel k retries attempts : Nat) (b : Bool) (s' : Nat),
      (sendSmallLoop seq_num message env fuel k retries attempts).1 = some (b, s') →
      s' = (if b then 1 - seq_num else seq_num) ∧ (seq_num ≤ 1 → s' ≤ 1)) := by
  refine ⟨?_, ?_, ?_⟩
  · intro st frame
    unfold receive
    split
    · exact Or.inl rfl
    · rename_i s d f t hcf
      by_cases hfrag : is_fragmented t
      · rw [if_pos hfrag]
        unfold receive_fragmented_message
        dsimp only
        by_cases hlen : (dictSet ((dictGet st.fragment_buffers s).getD []) f d).length = t
        · rw [if_pos hlen]
          cases hasm : assemble (dictSet ((dictGet st.fragment_buffers s).getD []) f d) t with
          | none => exact Or.inl rfl
          | some complete =>
            dsimp only
            by_cases hseq : s = st.expected_seq
            · rw [if_pos hseq]
              exact Or.inr ⟨rfl, rfl, by rw [hcf, hseq]⟩
            · rw [if_neg hseq]
              exact Or.inl rfl
        · rw [if_neg hlen]
          exact Or.inl rfl
      · rw [if_neg hfrag]
        dsimp only
        by_cases hseq : s = st.expected_seq
        · rw [if_pos hseq]
          exact Or.inr ⟨rfl, rfl, by rw [hcf, hseq]⟩
        · rw [if_neg hseq]
          exact Or.inl rfl
  · intro seq_num message rounds fuel b s' p r h
    unfold send_fragmented_message at h
    cases hcff : create_fragmented_frames seq_num message with
    | none =>
      rw [hcff] at h
      simp at h
    | some frames =>
      rw [hcff] at h
      simp only [Option.some_bind] at h
      cases hloop : sendFragLoop seq_num frames.length rounds fuel 0
          (List.range frames.length) (fun _ => 0) with
      | none =>
        rw [hloop] at h
        simp at h
      | some res =>
        rw [hloop] at h
        simp only [Option.map_some', Option.some.injEq, Prod.mk.injEq] at h
        obtain ⟨hb, hs, hp, hr2⟩ := h
        constructor
        · rw [← hb, ← hs]
        · intro hle
          rw [← hs]
          split
          · exact Nat.sub_le 1 seq_num
          · exact hle
  · intro seq_num message env fuel k retries attempts b s' h
    have := sendSmallLoop_seq seq_num message env fuel k retries attempts b s' h
    refine ⟨this, fun hle => ?_⟩
    rw [this]
    split
    · exact Nat.sub_le 1 seq_num
    · exact hle

set_option maxRecDepth 8000 in
/-- Witness for C9: a concrete small-message run that exhausts all retries
(every wait times out) keeps the sequence bit at its old value `0`, exactly
as the claim theorem's third conjunct states at this input. -/
theorem sequence_bit_discipline_witness :
    (sendSmallLoop 0 [72] (fun _ => none) 20 0 0 0).1 = some (false, 0) ∧
    (0 : Nat) = (if (false : Bool) then 1 - 0 else 0) ∧ (0 : Nat) ≤ 1 := by
  have hrun : (sendSmallLoop 0 [72] (fun _ => none) 20 0 0 0).1 = some (false, 0) := by
    decide
  have h := sequence_bit_discipline.2.2 0 [72] (fun _ => none) 20 0 0 0 false 0 hrun
  exact ⟨hrun, h.1, h.2 (by decide)⟩

/-! ## C4: retry ceiling of the two send paths -/

theorem processAcks_nil (seq : Nat) (p : List Nat) : processAcks seq [] p = p := rfl

theorem foldl_max_replicate (c : Nat) : ∀ (n a : Nat),
    List.foldl max a (List.replicate n c) = if n = 0 then a else max a c
  | 0, _ => rfl
  | n + 1, a => by
    rw [List.replicate_succ, List.foldl_cons, foldl_max_replicate c n (max a c),
      if_neg (Nat.succ_ne_zero n)]
    split <;> omega

/-- `max(retries.values())` over counters that are uniformly `r0` on the
fragment ids. -/
theorem maxRetriesVal_uniform (retries : Nat → Nat) (total r0 : Nat)
    (h : ∀ i < total, retries i = r0) (ht : 0 < total) :
    maxRetriesVal retries total = r0 := by
  unfold maxRetriesVal
  have hmap : (List.range total).map retries = List.replicate total r0 := by
    apply List.ext_getElem
    · simp
    · intro i h1 h2
      simp only [List.getElem_map, List.getElem_range, List.getElem_replicate]
      exact h i (by simpa using h1)
  rw [hmap, foldl_max_replicate]
  split
  · omega
  · omega

/-- When no datagram ever arrives, the outer retransmission loop keeps the
whole fragment set pending, increments every counter once per round, and
stops with failure exactly when the uniform counters hit `MAX_RETRY`. -/
theorem sendFragLoop_no_acks (seq total : Nat) (rounds : Nat → List (List Nat))
    (hr : ∀ k, rounds k = []) (ht : 0 < total) (fuel : Nat) :
    ∀ (r0 k : Nat) (retries : Nat → Nat), r0 ≤ MAX_RETRY → MAX_RETRY - r0 < fuel →
      (∀ i < total, retries i = r0) →
      ∃ r, sendFragLoop seq total rounds fuel k (List.range total) retries =
            some (false, List.range total, r) ∧ ∀ i < total, r i = MAX_RETRY := by
  induction fuel with
  | zero =>
    intro r0 k retries _ hfu _
    exact absurd hfu (Nat.not_lt_zero _)
  | succ n ih =>
    intro r0 k retries hle hfu hinv
    have hne : List.range total ≠ [] := by
      intro hmt
      rw [List.range_eq_nil] at hmt
      omega
    by_cases hlt : r0 < MAX_RETRY
    · have hguard : List.range total ≠ [] ∧ maxRetriesVal retries total < MAX_RETRY :=
        ⟨hne, by rw [maxRetriesVal_uniform retries total r0 hinv ht]; exact hlt⟩
      simp only [sendFragLoop]
      rw [if_pos hguard]
      rw [hr k, processAcks_nil]
      exact ih (r0 + 1) (k + 1) _ (by omega) (by omega) (fun i hi => by
        have hmem : i ∈ List.range total := List.mem_range.mpr hi
        show (if i ∈ List.range total ∧ retries i < MAX_RETRY
              then retries i + 1 else retries i) = r0 + 1
        rw [if_pos ⟨hmem, by rw [hinv i hi]; exact hlt⟩, hinv i hi])
    · have hr0 : r0 = MAX_RETRY := by omega
      simp only [sendFragLoop]
      rw [if_neg (fun hc => absurd
        (by rw [maxRetriesVal_uniform retries total r0 hinv ht] at hc; exact hc.2)
        (by omega))]
      refine ⟨retries, ?_, fun i hi => by rw [hinv i hi, hr0]⟩
      rw [decide_eq_false hne]

/-- The Boolean result of the retransmission loop is `pending = []` at the
moment the loop stops. -/
theorem sendFragLoop_success_iff (seq total : Nat)
    (rounds : Nat → List (List Nat)) (fuel : Nat) :
    ∀ (k : Nat) (pending : List Nat) (retries : Nat → Nat) (b : Bool)
      (p : List Nat) (r : Nat → Nat),
      sendFragLoop seq total rounds fuel k pending retries = some (b, p, r) →
      (b = true ↔ p = []) := by
  induction fuel with
  | zero =>
    intro k pending retries b p r h
    exact absurd h (by simp [sendFragLoop])
  | succ n ih =>
    intro k pending retries b p r h
    simp only [sendFragLoop] at h
    split at h
    · exact ih _ _ _ b p r h
    · simp only [Option.some.injEq, Prod.mk.injEq] at h
      obtain ⟨hb, hp, _⟩ := h
      rw [← hb, ← hp]
      simp

/-- When every wait times out, the small-message loop increments `retries`
once per transmission and stops with failure after exactly
`MAX_RETRY - r0` further attempts. -/
theorem sendSmallLoop_all_timeouts (seq : Nat) (msg : List Nat)
    (env : Nat → Option (List Nat)) (henv : ∀ k, env k = none)
    (hcf : (create_frame seq msg 0 1).isSome = true) (fuel : Nat) :
    ∀ (r0 k a : Nat), r0 ≤ MAX_RETRY → MAX_RETRY - r0 < fuel →
      sendSmallLoop seq msg env fuel k r0 a =
        (some (false, seq), a + (MAX_RETRY - r0)) := by
  induction fuel with
  | zero =>
    intro r0 k a _ hfu
    exact absurd hfu (Nat.not_lt_zero _)
  | succ n ih =>
    intro r0 k a hle hfu
    by_cases hlt : r0 < MAX_RETRY
    · simp only [sendSmallLoop]
      rw [if_pos hlt]
      split
    --  create_frame returned none: contradiction with hcf
      · rename_i hnone
        rw [hnone] at hcf
        exact absurd hcf (by simp)
      · split
        · rename_i ack hack
          rw [henv k] at hack
          exact absurd hack.symm (by simp)
        · rw [ih (r0 + 1) (k + 1) (a + 1) (by omega) (by omega)]
          simp only [Prod.mk.injEq]
          refine ⟨trivial, ?_⟩
          omega
    · have hr0 : r0 = MAX_RETRY := by omega
      simp only [sendSmallLoop]
      rw [if_neg hlt]
      simp only [Prod.mk.injEq]
      refine ⟨trivial, ?_⟩
      omega

set_option maxRecDepth 8000 in
/-- `send_small_message` increments `retries` only on a timeout or an
exception, not when a datagram arrives that is not the awaited ACK: if the
socket always yields some non-ACK frame (here the empty datagram), the
loop never finishes, for any amount of fuel. -/
theorem sendSmallLoop_nonack_none :
    ∀ (fuel k attempts : Nat),
      (sendSmallLoop 0 [72] (fun _ => some []) fuel k 0 attempts).1 = none := by
  have hne : ¬((check_frame []).2.1 = ackBytes ∧ (check_frame []).1 = some 0) := by
    decide
  have hcf : (create_frame 0 [72] 0 1).isSome = true := by decide
  intro fuel
  induction fuel with
  | zero => intro k a; rfl
  | succ n ih =>
    intro k a
    simp only [sendSmallLoop]
    rw [if_pos (by decide : 0 < MAX_RETRY)]
    split
    next hnone =>
      rw [hnone] at hcf
      exact absurd hcf (by simp)
    next w hw =>
      split
      next hack => exact absurd hack hne
      next hnack => exact ih (k + 1) (a + 1)

set_option maxRecDepth 8000 in
/-- **C4 (counterexample).** The small sender at seq 0, message `b'H'`, on
a channel that always delivers a non-ACK datagram (here empty): after 20
loop iterations — twice the `MAX_RETRY` ceiling — the loop is still
running (`none`) and has already transmitted the frame 20 times, because a
received non-ACK frame does not advance `retries`; `sendSmallLoop_nonack_none`
shows this holds for every amount of fuel, i.e. the code can loop forever,
so a send whose ACKs never arrive but whose socket keeps receiving other
traffic neither terminates nor stops at `MAX_RETRY` attempts. -/
theorem small_send_nonack_traffic_loops :
    (sendSmallLoop 0 [72] (fun _ => some []) 20 0 0 0).1 = none ∧
    (sendSmallLoop 0 [72] (fun _ => some []) 20 0 0 0).2 = 20 := by
  constructor
  · decide
  · decide

/-- **C4 (amended).** With no incoming datagrams at all, the fragmented
sender terminates (given more than `MAX_RETRY` rounds of fuel), reports
failure with the whole fragment set still pending, and has transmitted
every fragment exactly `MAX_RETRY` times, never fewer; in general a
completed `send_fragmented_message` reports success exactly when the
pending set ended empty. `send_small_message` under pure timeouts likewise
stops with failure after exactly `MAX_RETRY` transmissions — but the claim
that a send whose ACKs never arrive "never loops forever" is false for
`send_small_message` when the lost ACKs are replaced by other traffic: see
`small_send_nonack_traffic_loops`. -/
theorem retry_ceiling :
    (∀ (seq total : Nat) (rounds : Nat → List (List Nat)) (fuel : Nat),
      (∀ k, rounds k = []) → 0 < total → MAX_RETRY < fuel →
      ∃ r, sendFragLoop seq total rounds fuel 0 (List.range total)
              (fun _ => 0) = some (false, List.range total, r) ∧
            ∀ i < total, r i = MAX_RETRY) ∧
    (∀ (seq_num : Nat) (message : List Nat) (rounds : Nat → List (List Nat))
        (fuel : Nat) (b : Bool) (s' : Nat) (p : List Nat) (r : Nat → Nat),
      send_fragmented_message seq_num message rounds fuel = some (b, s', p, r) →
      (b = true ↔ p = [])) ∧
    (∀ (seq : Nat) (msg : List Nat) (env : Nat → Option (List Nat))
        (fuel : Nat),
      (∀ k, env k = none) → (create_frame seq msg 0 1).isSome = true →
      MAX_RETRY < fuel →
      sendSmallLoop seq msg env fuel 0 0 0 = (some (false, seq), MAX_RETRY)) := by
  refine ⟨?_, ?_, ?_⟩
  · intro seq total rounds fuel hr ht hfu
    exact sendFragLoop_no_acks seq total rounds hr ht fuel 0 0 (fun _ => 0)
      (by omega) (by omega) (fun i _ => rfl)
  · intro seq_num message rounds fuel b s' p r h
    unfold send_fragmented_message at h
    cases hcff : create_fragmented_frames seq_num message with
    | none =>
      rw [hcff] at h
      simp at h
    | some frames =>
      rw [hcff] at h
      simp only [Option.some_bind] at h
      cases hloop : sendFragLoop seq_num frames.length rounds fuel 0
          (List.range frames.length) (fun _ => 0) with
      | none =>
        rw [hloop] at h
        simp at h
      | some res =>
        rw [hloop] at h
        simp only [Option.map_some', Option.some.injEq, Prod.mk.injEq] at h
        obtain ⟨hb, _, hp, _⟩ := h
        rw [← hb, ← hp]
        exact sendFragLoop_success_iff seq_num frames.length rounds fuel 0
          (List.range frames.length) (fun _ => 0) res.1 res.2.1 res.2.2 hloop
  · intro seq msg env fuel henv hcf hfu
    have h := sendSmallLoop_all_timeouts seq msg env henv hcf fuel 0 0 0
      (by omega) (by omega)
    simpa using h

set_option maxRecDepth 8000 in
/-- Witness for C4: the small sender at sequence bit 0, message `b'H'`, on
a channel that always times out, with 11 rounds of fuel: the theorem's
third conjunct applies and gives failure after exactly `MAX_RETRY`
transmissions. -/
theorem retry_ceiling_witness :
    (create_frame 0 [72] 0 1).isSome = true ∧ MAX_RETRY < 11 ∧
    sendSmallLoop 0 [72] (fun _ => none) 11 0 0 0 = (some (false, 0), MAX_RETRY) := by
  refine ⟨by decide, by decide, ?_⟩
  exact retry_ceiling.2.2 0 [72] (fun _ => none) 11 (fun k => rfl) (by decide)
    (by decide)

/-! ## C3: fragmentation / reassembly round trip -/

theorem dictGet_dictSet_self {α : Type} :
    ∀ (l : List (Nat × α)) (k : Nat) (v : α),
      dictGet (dictSet l k v) k = some v
  | [], k, v => by simp [dictSet, dictGet]
  | (k', v') :: rest, k, v => by
    by_cases h : k' = k
    · simp [dictSet, dictGet, h]
    · simp only [dictSet, if_neg h, dictGet]
      exact dictGet_dictSet_self rest k v

theorem dictGet_mem {α : Type} :
    ∀ (l : List (Nat × α)) (k : Nat) (v : α),
      dictGet l k = some v → (k, v) ∈ l
  | [], k, v => by simp [dictGet]
  | (k', v') :: rest, k, v => by
    simp only [dictGet]
    split
    · rename_i h
      intro hv
      simp only [Option.some.injEq] at hv
      subst h hv
      exact List.mem_cons_self _ _
    · intro hv
      exact List.mem_cons_of_mem _ (dictGet_mem rest k v hv)

theorem mem_dictSet {α : Type} :
    ∀ (l : List (Nat × α)) (k : Nat) (v : α),
      ∀ p ∈ dictSet l k v, p = (k, v) ∨ p ∈ l
  | [], k, v => by simp [dictSet]
  | (k', v') :: rest, k, v => by
    intro p hp
    simp only [dictSet] at hp
    split at hp
    · rcases List.mem_cons.mp hp with h | h
      · exact Or.inl h
      · exact Or.inr (List.mem_cons_of_mem _ h)
    · rcases List.mem_cons.mp hp with h | h
      · exact Or.inr (h ▸ List.mem_cons_self _ _)
      · rcases mem_dictSet rest k v p h with h2 | h2
        · exact Or.inl h2
        · exact Or.inr (List.mem_cons_of_mem _ h2)

theorem fst_dictSet {α : Type} :
    ∀ (l : List (Nat × α)) (k : Nat) (v : α) (x : Nat),
      x ∈ (dictSet l k v).map Prod.fst ↔ x = k ∨ x ∈ l.map Prod.fst
  | [], k, v, x => by simp [dictSet]
  | (k', v') :: rest, k, v, x => by
    simp only [dictSet]
    split
    · rename_i h
      subst h
      simp
    · simp only [List.map_cons, List.mem_cons, fst_dictSet rest k v x]
      tauto

theorem dictSet_fst_nodup {α : Type} :
    ∀ (l : List (Nat × α)) (k : Nat) (v : α),
      (l.map Prod.fst).Nodup → ((dictSet l k v).map Prod.fst).Nodup
  | [], k, v => by simp [dictSet]
  | (k', v') :: rest, k, v => by
    intro h
    simp only [List.map_cons, List.nodup_cons] at h
    simp only [dictSet]
    split
    · rename_i he
      subst he
      simpa [List.nodup_cons] using h
    · rename_i he
      simp only [List.map_cons, List.nodup_cons]
      refine ⟨fun hmem => ?_, dictSet_fst_nodup rest k v h.2⟩
      rcases (fst_dictSet rest k v k').mp hmem with h2 | h2
      · exact he h2
      · exact h.1 h2

theorem dictSet_length {α : Type} :
    ∀ (l : List (Nat × α)) (k : Nat) (v : α),
      (dictSet l k v).length =
        if k ∈ l.map Prod.fst then l.length else l.length + 1
  | [], k, v => by simp [dictSet]
  | (k', v') :: rest, k, v => by
    simp only [dictSet]
    split
    · rename_i h
      subst h
      simp
    · rename_i h
      simp only [List.length_cons, dictSet_length rest k v, List.map_cons,
        List.mem_cons]
      have hne : ¬(k = k') := fun he => h he.symm
      by_cases hm : k ∈ rest.map Prod.fst
      · simp [hm, hne]
      · simp [hm, hne]

theorem dictDel_sublist {α : Type} :
    ∀ (l : List (Nat × α)) (k : Nat), List.Sublist (dictDel l k) l
  | [], _ => List.Sublist.refl []
  | (k', v') :: rest, k => by
    simp only [dictDel]
    split
    · exact List.sublist_cons_self _ _
    · exact List.Sublist.cons₂ _ (dictDel_sublist rest k)

theorem dictGet_eq_none_of_not_mem {α : Type} :
    ∀ (l : List (Nat × α)) (k : Nat), k ∉ l.map Prod.fst → dictGet l k = none
  | [], _ => fun _ => rfl
  | (k', v') :: rest, k => by
    intro h
    simp only [List.map_cons, List.mem_cons] at h
    push_neg at h
    simp only [dictGet]
    rw [if_neg (fun he => h.1 he.symm)]
    exact dictGet_eq_none_of_not_mem rest k h.2

theorem dictGet_isSome_of_mem {α : Type} :
    ∀ (l : List (Nat × α)) (k : Nat), k ∈ l.map Prod.fst →
      (dictGet l k).isSome = true
  | [], k => by simp
  | (k', v') :: rest, k => by
    intro h
    simp only [dictGet]
    by_cases he : k' = k
    · rw [if_pos he]
      rfl
    · rw [if_neg he]
      simp only [List.map_cons, List.mem_cons] at h
      rcases h with h | h
      · exact absurd h.symm he
      · exact dictGet_isSome_of_mem rest k h

theorem dictGet_dictDel_self {α : Type} :
    ∀ (l : List (Nat × α)) (k : Nat), (l.map Prod.fst).Nodup →
      dictGet (dictDel l k) k = none
  | [], _ => fun _ => rfl
  | (k', v') :: rest, k => by
    intro h
    simp only [List.map_cons, List.nodup_cons] at h
    simp only [dictDel]
    split
    · rename_i he
      subst he
      exact dictGet_eq_none_of_not_mem rest k' h.1
    · rename_i he
      simp only [dictGet]
      rw [if_neg he]
      exact dictGet_dictDel_self rest k h.2

theorem keys_complete (K : List Nat) (total : Nat) (hnd : K.Nodup)
    (hlt : ∀ x ∈ K, x < total) (hlen : total ≤ K.length) :
    ∀ j < total, j ∈ K := by
  intro j hj
  have h1 : K.toFinset ⊆ Finset.range total := fun x hx =>
    Finset.mem_range.mpr (hlt x (List.mem_toFinset.mp hx))
  have h2 : (Finset.range total).card ≤ K.toFinset.card := by
    rw [List.toFinset_card_of_nodup hnd, Finset.card_range]
    exact hlen
  have h3 : K.toFinset = Finset.range total :=
    Finset.eq_of_subset_of_card_le h1 h2
  exact List.mem_toFinset.mp (h3 ▸ Finset.mem_range.mpr hj)

theorem length_ge_of_complete (K : List Nat) (total : Nat) (hnd : K.Nodup)
    (hall : ∀ j < total, j ∈ K) : total ≤ K.length := by
  have h1 : Finset.range total ⊆ K.toFinset := fun x hx =>
    List.mem_toFinset.mpr (hall x (Finset.mem_range.mp hx))
  have h2 := Finset.card_le_card h1
  rw [Finset.card_range, List.toFinset_card_of_nodup hnd] at h2
  exact h2

theorem assembleAux_eq (B : List (Nat × List Nat)) (f : Nat → List Nat) :
    ∀ (r i : Nat), (∀ j, i ≤ j → j < i + r → dictGet B j = some (f j)) →
      assembleAux B r i = some (((List.range' i r).map f).flatten) := by
  intro r
  induction r with
  | zero => intro i _; rfl
  | succ n ih =>
    intro i h
    simp only [assembleAux]
    rw [h i (Nat.le_refl i) (by omega)]
    rw [ih (i + 1) (fun j h1 h2 => h j (by omega) (by omega))]
    simp [List.range'_succ]

theorem assembleAux_missing (B : List (Nat × List Nat)) (j : Nat)
    (hj : dictGet B j = none) :
    ∀ (r i : Nat), i ≤ j → j < i + r → assembleAux B r i = none := by
  intro r
  induction r with
  | zero => intro i h1 h2; omega
  | succ n ih =>
    intro i h1 h2
    simp only [assembleAux]
    by_cases he : i = j
    · subst he
      rw [hj]
    · rw [ih (i + 1) (by omega) (by omega)]
      cases dictGet B i <;> rfl

/-- The receiver-side buffer invariant maintained while fragments of the
message `m` (sequence number `seq`, `total` fragments) arrive: the outer
buffer dict has distinct keys, and the inner buffer for `seq` holds fewer
than `total` entries, with distinct fragment ids, each id below `total`
and mapped to its true chunk of `m`. -/
def stInv (m : List Nat) (total seq : Nat) (st : ClientState) : Prop :=
  (st.fragment_buffers.map Prod.fst).Nodup ∧
  ((dictGet st.fragment_buffers seq).getD []).length < total ∧
  ((((dictGet st.fragment_buffers seq).getD []).map Prod.fst).Nodup) ∧
  ∀ p ∈ (dictGet st.fragment_buffers seq).getD [],
    p.1 < total ∧ p.2 = fragmentChunk m p.1

theorem receive_frag_eq_incomplete (st : ClientState) (seq i total : Nat)
    (d : List Nat)
    (hlen : (dictSet ((dictGet st.fragment_buffers seq).getD []) i d).length ≠
      total) :
    receive_fragmented_message st seq i total d =
      (⟨st.expected_seq,
          dictSet st.fragment_buffers seq
            (dictSet ((dictGet st.fragment_buffers seq).getD []) i d)⟩,
        create_frame seq ackBytes i total, none) := by
  unfold receive_fragmented_message
  dsimp only
  rw [if_neg hlen]

theorem receive_frag_eq_complete (st : ClientState) (seq i total : Nat)
    (d c : List Nat)
    (hlen : (dictSet ((dictGet st.fragment_buffers seq).getD []) i d).length =
      total)
    (hassm : assemble (dictSet ((dictGet st.fragment_buffers seq).getD []) i d)
      total = some c) :
    receive_fragmented_message st seq i total d =
      (⟨if seq = st.expected_seq then 1 - st.expected_seq else st.expected_seq,
          dictDel (dictSet st.fragment_buffers seq
            (dictSet ((dictGet st.fragment_buffers seq).getD []) i d)) seq⟩,
        create_frame seq ackBytes i total, some c) := by
  unfold receive_fragmented_message
  dsimp only
  rw [if_pos hlen, hassm]
  by_cases hseq : seq = st.expected_seq
  · simp only [if_pos hseq]
  · simp only [if_neg hseq]

/-- One fragment arrival preserves the buffer invariant; anything it
delivers is exactly `m`; when nothing is delivered the inner buffer keeps
its old ids and gains `i`; and an id that is neither `i` nor buffered
blocks delivery and stays unbuffered. -/
theorem receive_frag_step (m : List Nat) (seq total : Nat)
    (htot : (m.length + 15) / 16 = total) (st : ClientState) (i : Nat)
    (hi : i < total) (hinv : stInv m total seq st) :
    stInv m total seq
      (receive_fragmented_message st seq i total (fragmentChunk m i)).1 ∧
    (∀ c, (receive_fragmented_message st seq i total
      (fragmentChunk m i)).2.2 = some c → c = m) ∧
    ((receive_fragmented_message st seq i total (fragmentChunk m i)).2.2 =
        none →
      ∀ x, (x = i ∨
          x ∈ ((dictGet st.fragment_buffers seq).getD []).map Prod.fst) →
        x ∈ ((dictGet (receive_fragmented_message st seq i total
          (fragmentChunk m i)).1.fragment_buffers seq).getD []).map
          Prod.fst) ∧
    (∀ j, j < total → j ≠ i →
      j ∉ ((dictGet st.fragment_buffers seq).getD []).map Prod.fst →
      (receive_fragmented_message st seq i total (fragmentChunk m i)).2.2 =
          none ∧
      j ∉ ((dictGet (receive_fragmented_message st seq i total
        (fragmentChunk m i)).1.fragment_buffers seq).getD []).map Prod.fst) := by
  obtain ⟨hond, hblen, hbnd, hbval⟩ := hinv
  have ht : 0 < total := by omega
  have hknd : ((dictSet ((dictGet st.fragment_buffers seq).getD []) i
      (fragmentChunk m i)).map Prod.fst).Nodup :=
    dictSet_fst_nodup _ _ _ hbnd
  have hklt : ∀ x ∈ (dictSet ((dictGet st.fragment_buffers seq).getD []) i
      (fragmentChunk m i)).map Prod.fst, x < total := by
    intro x hx
    rcases (fst_dictSet _ i _ x).mp hx with h | h
    · omega
    · obtain ⟨p, hp, hpx⟩ := List.mem_map.mp h
      rw [← hpx]
      exact (hbval p hp).1
  have hvals : ∀ p ∈ dictSet ((dictGet st.fragment_buffers seq).getD []) i
      (fragmentChunk m i), p.1 < total ∧ p.2 = fragmentChunk m p.1 := by
    intro p hp
    rcases mem_dictSet _ i _ p hp with h | h
    · rw [h]
      exact ⟨hi, rfl⟩
    · exact hbval p h
  by_cases hlen : (dictSet ((dictGet st.fragment_buffers seq).getD []) i
      (fragmentChunk m i)).length = total
  · have hall : ∀ j < total, j ∈ (dictSet
        ((dictGet st.fragment_buffers seq).getD []) i
        (fragmentChunk m i)).map Prod.fst :=
      keys_complete _ total hknd hklt (by rw [List.length_map]; omega)
    have hget : ∀ j, 0 ≤ j → j < 0 + total →
        dictGet (dictSet ((dictGet st.fragment_buffers seq).getD []) i
          (fragmentChunk m i)) j = some (fragmentChunk m j) := by
      intro j _ hjt
      have hsome := dictGet_isSome_of_mem _ j (hall j (by omega))
      cases hv : dictGet (dictSet ((dictGet st.fragment_buffers seq).getD [])
          i (fragmentChunk m i)) j with
      | none =>
        rw [hv] at hsome
        exact absurd hsome (by simp)
      | some v =>
        have hmem := dictGet_mem _ j v hv
        exact congrArg some (hvals (j, v) hmem).2
    have hassm : assemble (dictSet ((dictGet st.fragment_buffers seq).getD [])
        i (fragmentChunk m i)) total = some m := by
      unfold assemble
      rw [assembleAux_eq _ (fragmentChunk m) total 0 hget,
        ← List.range_eq_range', flatten_fragmentChunks total m htot]
    rw [receive_frag_eq_complete st seq i total (fragmentChunk m i) m hlen
      hassm]
    dsimp only
    have hsnd : ((dictSet st.fragment_buffers seq
        (dictSet ((dictGet st.fragment_buffers seq).getD []) i
          (fragmentChunk m i))).map Prod.fst).Nodup :=
      dictSet_fst_nodup _ _ _ hond
    have hdel : dictGet (dictDel (dictSet st.fragment_buffers seq
        (dictSet ((dictGet st.fragment_buffers seq).getD []) i
          (fragmentChunk m i))) seq) seq = none :=
      dictGet_dictDel_self _ seq hsnd
    refine ⟨⟨?_, ?_, ?_, ?_⟩, ?_, ?_, ?_⟩
    · exact ((dictDel_sublist _ seq).map Prod.fst).nodup hsnd
    · rw [hdel]
      simpa using ht
    · rw [hdel]
      simp
    · rw [hdel]
      simp
    · intro c hc
      simp only [Option.some.injEq] at hc
      exact hc.symm
    · intro hnone
      simp at hnone
    · intro j hjt hji hjb
      exfalso
      rcases (fst_dictSet _ i _ j).mp (hall j hjt) with h | h
      · exact hji h
      · exact hjb h
  · rw [receive_frag_eq_incomplete st seq i total (fragmentChunk m i) hlen]
    dsimp only
    have hget2 : dictGet (dictSet st.fragment_buffers seq
        (dictSet ((dictGet st.fragment_buffers seq).getD []) i
          (fragmentChunk m i))) seq =
        some (dictSet ((dictGet st.fragment_buffers seq).getD []) i
          (fragmentChunk m i)) :=
      dictGet_dictSet_self _ seq _
    refine ⟨⟨?_, ?_, ?_, ?_⟩, ?_, ?_, ?_⟩
    · exact dictSet_fst_nodup _ _ _ hond
    · rw [hget2]
      simp only [Option.getD_some]
      rw [dictSet_length] at hlen ⊢
      by_cases hm : i ∈ ((dictGet st.fragment_buffers seq).getD []).map Prod.fst
      · rw [if_pos hm]
        omega
      · rw [if_neg hm] at hlen
        rw [if_neg hm]
        omega
    · rw [hget2]
      exact hknd
    · rw [hget2]
      exact hvals
    · intro c hc
      exact absurd hc (by simp)
    · intro _ x hx
      rw [hget2]
      simp only [Option.getD_some]
      rcases hx with h | h
      · exact (fst_dictSet _ i _ x).mpr (Or.inl h)
      · exact (fst_dictSet _ i _ x).mpr (Or.inr h)
    · intro j _ hji hjb
      refine ⟨rfl, ?_⟩
      rw [hget2]
      simp only [Option.getD_some]
      intro hmem
      rcases (fst_dictSet _ i _ j).mp hmem with h | h
      · exact hji h
      · exact hjb h

/-- Feed the receiver one fragment arrival per list element: element `i`
delivers fragment id `i` of message `m` (payload `fragmentChunk m i`,
sequence number `seq`), exactly as `client.receive` routes each decoded
fragment frame to `receive_fragmented_message`. Returns the final state
and the messages delivered to the application, in order. -/
def runFragments (seq total : Nat) (m : List Nat) :
    ClientState → List Nat → ClientState × List (List Nat)
  | st, [] => (st, [])
  | st, i :: rest =>
    let r := receive_fragmented_message st seq i total (fragmentChunk m i)
    let res := runFragments seq total m r.1 rest
    (res.1, r.2.2.toList ++ res.2)

/-- Soundness of a whole arrival sequence: the invariant is preserved,
every delivered message is `m`, and if nothing was delivered the final
buffer still holds every id that arrived or was already buffered. -/
theorem runFragments_sound (m : List Nat) (seq total : Nat)
    (htot : (m.length + 15) / 16 = total) :
    ∀ (arrivals : List Nat) (st : ClientState),
      (∀ i ∈ arrivals, i < total) → stInv m total seq st →
      (∀ out ∈ (runFragments seq total m st arrivals).2, out = m) ∧
      stInv m total seq (runFragments seq total m st arrivals).1 ∧
      ((runFragments seq total m st arrivals).2 = [] →
        ∀ x, (x ∈ arrivals ∨
            x ∈ ((dictGet st.fragment_buffers seq).getD []).map Prod.fst) →
          x ∈ ((dictGet (runFragments seq total m st
            arrivals).1.fragment_buffers seq).getD []).map Prod.fst) := by
  intro arrivals
  induction arrivals with
  | nil =>
    intro st _ hinv
    refine ⟨by simp [runFragments], hinv, ?_⟩
    intro _ x hx
    simp only [runFragments]
    rcases hx with h | h
    · exact absurd h (List.not_mem_nil x)
    · exact h
  | cons i rest ih =>
    intro st harr hinv
    have hi : i < total := harr i (List.mem_cons_self i rest)
    obtain ⟨hstep1, hstep2, hstep3, _⟩ :=
      receive_frag_step m seq total htot st i hi hinv
    obtain ⟨ihout, ihinv, ihkeys⟩ := ih
      (receive_fragmented_message st seq i total (fragmentChunk m i)).1
      (fun x hx => harr x (List.mem_cons_of_mem i hx)) hstep1
    simp only [runFragments]
    refine ⟨?_, ihinv, ?_⟩
    · intro out hout
      rcases List.mem_append.mp hout with h | h
      · cases hr : (receive_fragmented_message st seq i total
            (fragmentChunk m i)).2.2 with
        | none =>
          rw [hr] at h
          exact absurd h (List.not_mem_nil out)
        | some c =>
          rw [hr] at h
          simp only [Option.toList_some, List.mem_singleton] at h
          rw [h]
          exact hstep2 c hr
      · exact ihout out h
    · intro hempty x hx
      have hsplit := List.append_eq_nil.mp hempty
      have hnone : (receive_fragmented_message st seq i total
          (fragmentChunk m i)).2.2 = none := by
        cases hr : (receive_fragmented_message st seq i total
            (fragmentChunk m i)).2.2 with
        | none => rfl
        | some c =>
          rw [hr] at hsplit
          exact absurd hsplit.1 (by simp)
      refine ihkeys hsplit.2 x ?_
      rcases hx with h | h
      · rcases List.mem_cons.mp h with h2 | h2
        · exact Or.inr (hstep3 hnone x (Or.inl h2))
        · exact Or.inl h2
      · exact Or.inr (hstep3 hnone x (Or.inr h))

/-- If the fragment id `j` never arrives and is not buffered, no arrival
sequence can deliver anything. -/
theorem runFragments_missing (m : List Nat) (seq total : Nat)
    (htot : (m.length + 15) / 16 = total) (j : Nat) (hj : j < total) :
    ∀ (arrivals : List Nat) (st : ClientState),
      (∀ i ∈ arrivals, i < total) → j ∉ arrivals → stInv m total seq st →
      j ∉ ((dictGet st.fragment_buffers seq).getD []).map Prod.fst →
      (runFragments seq total m st arrivals).2 = [] := by
  intro arrivals
  induction arrivals with
  | nil =>
    intro st _ _ _ _
    rfl
  | cons i rest ih =>
    intro st harr hjarr hinv hjb
    have hi : i < total := harr i (List.mem_cons_self i rest)
    have hji : j ≠ i := fun he => hjarr (he ▸ List.mem_cons_self i rest)
    obtain ⟨hstep1, _, _, hstep4⟩ :=
      receive_frag_step m seq total htot st i hi hinv
    obtain ⟨hnone, hjb2⟩ := hstep4 j hj hji hjb
    simp only [runFragments, hnone, Option.toList_none, List.nil_append]
    exact ih (receive_fragmented_message st seq i total (fragmentChunk m i)).1
      (fun x hx => harr x (List.mem_cons_of_mem i hx))
      (fun hx => hjarr (List.mem_cons_of_mem i hx)) hstep1 hjb2

/-- **C3.** Reassembly round trip at the receiver: fragments of `m` (ids
below `total = ceil(len(m)/16)`, each carrying its true chunk) are fed in
an arbitrary arrival order, duplicates allowed, starting from an empty
buffer. Every message the receiver delivers is exactly `m`; if every
fragment id arrives at least once, something is delivered; and if some id
never arrives, nothing is ever delivered — a missing fragment never
falsely completes the message. -/
theorem fragmentation_reassembly_round_trip (m : List Nat)
    (seq e total : Nat) (htot : (m.length + 15) / 16 = total)
    (ht : 0 < total) (arrivals : List Nat)
    (harr : ∀ i ∈ arrivals, i < total) :
    (∀ out ∈ (runFragments seq total m ⟨e, []⟩ arrivals).2, out = m) ∧
    ((∀ j < total, j ∈ arrivals) →
      (runFragments seq total m ⟨e, []⟩ arrivals).2 ≠ []) ∧
    (∀ j < total, j ∉ arrivals →
      (runFragments seq total m ⟨e, []⟩ arrivals).2 = []) := by
  have hinv0 : stInv m total seq (⟨e, []⟩ : ClientState) := by
    refine ⟨by simp, ?_, by simp [dictGet], by simp [dictGet]⟩
    simp only [dictGet, Option.getD_none, List.length_nil]
    exact ht
  obtain ⟨hout, hinv, hkeys⟩ := runFragments_sound m seq total htot arrivals
    ⟨e, []⟩ harr hinv0
  refine ⟨hout, ?_, ?_⟩
  · intro hall hempty
    have hsub : ∀ j < total, j ∈ ((dictGet (runFragments seq total m
        (⟨e, []⟩ : ClientState) arrivals).1.fragment_buffers seq).getD
        []).map Prod.fst := by
      intro j hjt
      exact hkeys hempty j (Or.inl (hall j hjt))
    have hge := length_ge_of_complete _ total hinv.2.2.1 hsub
    rw [List.length_map] at hge
    have hlt := hinv.2.1
    omega
  · intro j hjt hjarr
    exact runFragments_missing m seq total htot j hjt arrivals ⟨e, []⟩ harr
      hjarr hinv0 (by simp [dictGet])

/-- Witness for C3: a 20-byte message split into `total = 2` fragments,
arriving in the order `[1, 0]` (out of order), is delivered: the claim
theorem's completeness conjunct applies and rules out an empty output. -/
theorem fragmentation_reassembly_round_trip_witness :
    (((List.replicate 20 7 : List Nat).length + 15) / 16 = 2 ∧
      0 < 2 ∧ (∀ i ∈ [1, 0], i < 2) ∧ ∀ j < 2, j ∈ [1, 0]) ∧
    (runFragments 0 2 (List.replicate 20 7) ⟨0, []⟩ [1, 0]).2 ≠ [] := by
  refine ⟨⟨by decide, by decide, by decide, by decide⟩, ?_⟩
  exact (fragmentation_reassembly_round_trip (List.replicate 20 7) 0 0 2
    (by decide) (by decide) [1, 0] (by decide)).2.1 (by decide)

end Protocol
